import Mathlib

/-!
Verification of the `godot` comment linter.

The repository contains two generations of the core linter code:

* `godot.go` — a self-contained snapshot with a period check only
  (`getText`, `checkText`, `checkComments`, `Run`, `Fix`);
* `getters.go` together with the checks file (`checkPeriod`, `checkCapital`,
  `checkCommentForPeriod`) — a later snapshot in which `getText` strips the
  comment markers and the checks work on the stripped text.

Go strings are embedded as lists of runes (`List Char`).  All operations the
linter performs on comment text (splitting on newlines, trimming whitespace,
prefix/suffix tests, rune-indexed insertion) act on runes, so this embedding
is faithful; where byte counts matter (`utf8Len`) they are computed from the
runes explicitly.  The two snapshots live in namespaces `V1` (godot.go) and
`V2` (getters.go + the checks file).
-/

/-- A Go string, viewed as its sequence of runes. -/
abbrev GoStr := List Char

/-- `unicode.IsSpace`: Unicode White_Space property (full table from the Go
runtime: Latin-1 part plus the dedicated space code points). -/
def goIsSpace (c : Char) : Bool :=
  c = ' ' || c = '\t' || c = '\n' || (0xB ≤ c.toNat && c.toNat ≤ 0xD) ||
  c.toNat = 0x85 || c.toNat = 0xA0 || c.toNat = 0x1680 ||
  (0x2000 ≤ c.toNat && c.toNat ≤ 0x200A) ||
  c.toNat = 0x2028 || c.toNat = 0x2029 || c.toNat = 0x202F ||
  c.toNat = 0x205F || c.toNat = 0x3000

/-- The regexp character class `\s` of Go's RE2: `[\t\n\f\r ]`. -/
def reSpace (c : Char) : Bool :=
  c = '\t' || c = '\n' || c = '\x0c' || c = '\r' || c = ' '

/-- ASCII lowercase letter, the class `[a-z]`. -/
def isLowerAscii (c : Char) : Bool := 'a' ≤ c && c ≤ 'z'

/-- The class `[a-z0-9]` of the `tags` regexp. -/
def isTagChar (c : Char) : Bool := isLowerAscii c || ('0' ≤ c && c ≤ '9')

/-- `unicode.IsLower`, restricted to the scripts that occur in this
development (ASCII, Latin-1 supplement and Cyrillic); outside these ranges
the embedding returns `false`.  Every concrete input below stays inside the
modelled ranges. -/
def goIsLower (c : Char) : Bool :=
  isLowerAscii c ||
  (0xDF ≤ c.toNat && c.toNat ≤ 0xFF && c.toNat ≠ 0xF7) ||
  (0x430 ≤ c.toNat && c.toNat ≤ 0x44F) || c.toNat = 0x451

/-- `strings.HasPrefix`. -/
def startsWith (s p : GoStr) : Bool := p.isPrefixOf s

/-- `strings.HasSuffix` for a single suffix. -/
def endsWith (s p : GoStr) : Bool := p.isSuffixOf s

/-- `strings.TrimPrefix`. -/
def trimLead (s p : GoStr) : GoStr :=
  if startsWith s p then s.drop p.length else s

/-- `strings.TrimSuffix`. -/
def trimSuffix (s p : GoStr) : GoStr :=
  if endsWith s p then s.take (s.length - p.length) else s

/-- `strings.TrimRightFunc(s, unicode.IsSpace)`. -/
def trimRight (s : GoStr) : GoStr := (s.reverse.dropWhile goIsSpace).reverse

/-- `strings.TrimLeftFunc(s, unicode.IsSpace)`. -/
def trimLeft (s : GoStr) : GoStr := s.dropWhile goIsSpace

/-- `strings.TrimSpace`. -/
def trimSpace (s : GoStr) : GoStr := trimLeft (trimRight s)

/-- `strings.Split(s, "\n")`. -/
def splitLines : GoStr → List GoStr
  | [] => [[]]
  | c :: rest =>
    if c = '\n' then [] :: splitLines rest
    else
      match splitLines rest with
      | [] => [[c]]
      | l :: ls => (c :: l) :: ls

/-- Join lines with `"\n"` separators (inverse of `splitLines`). -/
def joinNl : List GoStr → GoStr
  | [] => []
  | [l] => l
  | l :: rest => l ++ '\n' :: joinNl rest

/-- The joining performed by `Fix`: append `"\n"` to every line, concatenate,
then cut the final `"\n"` (`fixed = fixed[:len(fixed)-1]`). -/
def fixJoin (ls : List GoStr) : GoStr :=
  ((ls.map (fun l => l ++ ['\n'])).flatten).dropLast

/-- `strings.Contains`. -/
def containsStr : GoStr → GoStr → Bool
  | s, sub =>
    if sub.isPrefixOf s then true
    else match s with
      | [] => false
      | _ :: t => containsStr t sub

/-- Decimal rendering of a number, for error messages (`%d`). -/
def natStr (n : Nat) : GoStr := Nat.toDigits 10 n

/-- The `tags` regexp `^\+?[a-z0-9]+:`.  The character after a maximal
`[a-z0-9]` run decides the match (':' is not a tag character, so greedy
matching with backtracking coincides with the maximal-run test). -/
def tagsMatch (s : GoStr) : Bool :=
  let s1 := if startsWith s ("+".data) then s.drop 1 else s
  let run := s1.takeWhile isTagChar
  !run.isEmpty && startsWith (s1.drop run.length) (":".data)

/-- The `hashtags` regexp `^#[a-z]+($|\s)`.  As the run of `[a-z]` is
delimited by a non-lowercase character, only the maximal run can be followed
by `$` or `\s`. -/
def hashtagsMatch (s : GoStr) : Bool :=
  match s with
  | '#' :: rest =>
    let run := rest.takeWhile isLowerAscii
    !run.isEmpty &&
      (match rest.drop run.length with
       | [] => true
       | c :: _ => reSpace c)
  | _ => false

/-- The `endURL` regexp `[a-z]+://[^\s]+$`: some occurrence of `"://"`
preceded by a lowercase letter and followed by a nonempty run of
non-whitespace characters that reaches the end of the string. -/
def endURLMatch (s : GoStr) : Bool := go none s
where
  go : Option Char → GoStr → Bool
    | prev, u =>
      (match prev, u with
       | some pc, ':' :: '/' :: '/' :: rest =>
         isLowerAscii pc && !rest.isEmpty && rest.all (fun c => !reSpace c)
       | _, _ => false) ||
      (match u with
       | [] => false
       | c :: rest => go (some c) rest)

/-- `isSpecialBlock` (identical in both snapshots): CGO code blocks. -/
def isSpecialBlock (comment : GoStr) : Bool :=
  startsWith comment ("/*".data) &&
    (containsStr comment ("#include".data) || containsStr comment ("#define".data))

/-- `isSpecialLine` (identical in both snapshots). -/
def isSpecialLine (comment : GoStr) : Bool :=
  if startsWith comment ("//export ".data) then true
  else
    let c1 := trimLead comment ("//".data)
    let c2 := trimLead c1 ("/*".data)
    if startsWith c2 ("  ".data) || startsWith c2 (" \t".data) ||
        startsWith c2 ("\t".data) then true
    else
      let c3 := trimSpace c2
      tagsMatch c3 || hashtagsMatch c3 || endURLMatch c3 ||
        startsWith c3 ("+build".data)

/-- `hasSuffix(s, suffixes)` from both snapshots. -/
def hasSuffix (s : GoStr) (suffixes : List GoStr) : Bool :=
  suffixes.any (fun suf => endsWith s suf)

/-- Number of runes (`len([]rune(s))`). -/
def runeLen (s : GoStr) : Nat := s.length

/-- Number of UTF-8 bytes of the string (`len(s)` in Go). -/
def utf8Len (s : GoStr) : Nat := (s.map Char.utf8Size).sum

/-- Number of lines of a string, `len(strings.Split(s, "\n"))`. -/
def numLines (s : GoStr) : Nat := (splitLines s).length

/-! ## Data model -/

/-- In-comment position (`position` in both snapshots), 1-based. -/
structure position where
  line : Nat
  column : Nat
deriving DecidableEq, Repr

/-- `token.Position`. -/
structure Position where
  filename : GoStr
  offset : Nat
  line : Nat
  column : Nat
deriving DecidableEq, Repr

/-- `Issue`: a linting error with a recommended replacement. -/
structure Issue where
  pos : Position
  message : GoStr
  replacement : GoStr
deriving DecidableEq, Repr

/-- An `*ast.CommentGroup` together with the `token.FileSet` data the getters
read off it: the raw `token.Pos` offsets of `c.Pos()`/`c.End()` and the
resolved `fset.Position` fields of its start and the line of its end. -/
structure CommentGroup where
  list : List GoStr
  pos : Nat
  endPos : Nat
  filename : GoStr
  offset : Nat
  posLine : Nat
  posColumn : Nat
  endLine : Nat
deriving DecidableEq, Repr

/-- A top-level declaration as the getters inspect it: `*ast.GenDecl` with
its parenthesis positions and optional doc comment, or `*ast.FuncDecl` with
its optional doc comment. -/
inductive Decl where
  | gen (lparen rparen : Nat) (doc : Option CommentGroup)
  | func (doc : Option CommentGroup)
deriving DecidableEq, Repr

/-- A parsed file as the getters see it: comment groups, top-level
declarations, and the lines of its `format.Node` rendering. -/
structure GoFile where
  comments : List CommentGroup
  decls : List Decl
  rendered : List GoStr
deriving DecidableEq, Repr

/-- The internal `comment` representation (both snapshots): the texts of the
AST comment group with rendered lines attached; the start fields carry
`fset.Position(c.ast.List[0].Slash)`. -/
structure comment where
  astList : List GoStr
  lines : List GoStr
  filename : GoStr
  offset : Nat
  startLine : Nat
  startColumn : Nat
deriving DecidableEq, Repr

/-- Check scopes (`DeclScope`, `TopLevelScope`, `AllScope`). -/
inductive Scope where
  | decl | top | all
deriving DecidableEq, Repr

/-- `fmt.Errorf("invalid line number inside comment: %s:%d", ...)`. -/
def errLine (filename : GoStr) (line : Nat) : GoStr :=
  "invalid line number inside comment: ".data ++ filename ++ ":".data ++ natStr line

/-- `fmt.Errorf("invalid column number inside comment: %s:%d:%d", ...)`. -/
def errColumn (filename : GoStr) (line col : Nat) : GoStr :=
  "invalid column number inside comment: ".data ++ filename ++ ":".data ++
    natStr line ++ ":".data ++ natStr col

/-! ## Comment extraction (`getters.go`; `godot.go` carries a line-identical
copy of these functions) -/

/-- `lines[firstLine-1 : lastLine]`. -/
def sliceLines (lines : List GoStr) (firstLine lastLine : Nat) : List GoStr :=
  (lines.drop (firstLine - 1)).take (lastLine - (firstLine - 1))

/-- The `comment{ast: c, lines: lines[firstLine-1:lastLine]}` literal every
getter builds. -/
def mkComment (file : GoFile) (c : CommentGroup) : comment :=
  { astList := c.list
    lines := sliceLines file.rendered c.posLine c.endLine
    filename := c.filename
    offset := c.offset
    startLine := c.posLine
    startColumn := c.posColumn }

/-- `getAllComments`. -/
def getAllComments (file : GoFile) : List CommentGroup → Except GoStr (List comment)
  | [] => .ok []
  | c :: rest =>
    if file.rendered.length ≤ c.endLine then .error (errLine c.filename c.posLine)
    else
      match getAllComments file rest with
      | .error e => .error e
      | .ok cc => .ok (mkComment file c :: cc)

/-- `getTopLevelComments`: comment groups starting at column 1. -/
def getTopLevelComments (file : GoFile) : List CommentGroup → Except GoStr (List comment)
  | [] => .ok []
  | c :: rest =>
    if c.posColumn ≠ 1 then getTopLevelComments file rest
    else if file.rendered.length ≤ c.endLine then .error (errLine c.filename c.posLine)
    else
      match getTopLevelComments file rest with
      | .error e => .error e
      | .ok cc => .ok (mkComment file c :: cc)

/-- Inner loop of `getBlockComments` for one parenthesised `GenDecl`. -/
def getBlockCommentsInner (file : GoFile) (lparen rparen : Nat) :
    List CommentGroup → Except GoStr (List comment)
  | [] => .ok []
  | c :: rest =>
    if lparen > c.pos ∨ c.pos > rparen then getBlockCommentsInner file lparen rparen rest
    else if c.posColumn ≠ 2 then getBlockCommentsInner file lparen rparen rest
    else if file.rendered.length ≤ c.endLine then .error (errLine c.filename c.posLine)
    else
      match getBlockCommentsInner file lparen rparen rest with
      | .error e => .error e
      | .ok cc => .ok (mkComment file c :: cc)

/-- `getBlockComments`: comments inside top-level `var (...)` / `const (...)`
blocks. -/
def getBlockComments (file : GoFile) : List Decl → Except GoStr (List comment)
  | [] => .ok []
  | Decl.func _ :: rest => getBlockComments file rest
  | Decl.gen lparen rparen _ :: rest =>
    if lparen = 0 then getBlockComments file rest
    else
      match getBlockCommentsInner file lparen rparen file.comments with
      | .error e => .error e
      | .ok cc =>
        match getBlockComments file rest with
        | .error e => .error e
        | .ok cc2 => .ok (cc ++ cc2)

/-- The doc comment of a declaration (`d.Doc` in both `switch` branches). -/
def declDoc : Decl → Option CommentGroup
  | Decl.gen _ _ doc => doc
  | Decl.func doc => doc

/-- `getDeclarationComments`: doc comments of top-level declarations (the Go
source has two line-identical branches for `GenDecl` and `FuncDecl`). -/
def getDeclarationComments (file : GoFile) : List Decl → Except GoStr (List comment)
  | [] => .ok []
  | d :: rest =>
    match declDoc d with
    | none => getDeclarationComments file rest
    | some c =>
      if file.rendered.length ≤ c.endLine then .error (errLine c.filename c.posLine)
      else
        match getDeclarationComments file rest with
        | .error e => .error e
        | .ok cc => .ok (mkComment file c :: cc)

/-- `getComments`: dispatch on the scope.  (`format.Node`'s rendering of the
file is `file.rendered` in this model.) -/
def getComments (file : GoFile) (scope : Scope) : Except GoStr (List comment) :=
  if scope = Scope.all then
    match getAllComments file file.comments with
    | .error e => .error ("get all comments: ".data ++ e)
    | .ok cc => .ok cc
  else
    match getBlockComments file file.decls with
    | .error e => .error ("get block comments: ".data ++ e)
    | .ok cc =>
      if scope = Scope.top then
        match getTopLevelComments file file.comments with
        | .error e => .error ("get top level comments: ".data ++ e)
        | .ok cc2 => .ok (cc ++ cc2)
      else
        match getDeclarationComments file file.decls with
        | .error e => .error ("get declaration comments: ".data ++ e)
        | .ok cc2 => .ok (cc ++ cc2)

/-! ## The `godot.go` snapshot (period check only) -/

namespace V1

/-- `lastChars` of godot.go (no colon). -/
def lastChars : List GoStr :=
  [".".data, "?".data, "!".data, ".)".data, "?)".data, "!)".data]

/-- `noPeriodMessage`. -/
def noPeriodMessage : GoStr := "Comment should end in a period".data

/-- `getText` of godot.go: special blocks become empty, special lines are
replaced by the placeholder `"."` (block style) or `"// ."` (line style). -/
def getText (list : List GoStr) : GoStr :=
  if list.length = 1 && startsWith (list.headD []) ("/*".data) &&
      isSpecialBlock (list.headD []) then []
  else
    let s := list.foldl (fun s c =>
      let isMultiline := startsWith c ("/*".data)
      (splitLines c).foldl (fun s line =>
        let line := if isSpecialLine line then
            (if isMultiline then ".".data else "// .".data) else line
        s ++ line ++ ['\n']) s) []
    if s.isEmpty then [] else s.dropLast

/-- The per-line trimming of `checkText`: strip `//`, `/*`, `*/` according to
the line index `i` (with `n` total lines), returning the stripped line and
the prefix accounted for in the column computation. -/
def stripAt (isBlock : Bool) (n i : Nat) (line : GoStr) : GoStr × GoStr :=
  let (line, pre) :=
    if !isBlock then (trimLead line ("//".data), "//".data) else (line, ([] : GoStr))
  let (line, pre) :=
    if isBlock && i = 0 then (trimLead line ("/*".data), "/*".data) else (line, pre)
  let line := if isBlock && i = n - 1 then trimSuffix line ("*/".data) else line
  (line, pre)

/-- The countdown loop of `checkText`: the last line that is nonempty after
trimming, with its index, trimmed text and accounted prefix.  `i` is the
index of the head of the remaining list; later lines are preferred. -/
def scan (isBlock : Bool) (n : Nat) : Nat → List GoStr → Option (Nat × GoStr × GoStr)
  | _, [] => none
  | i, l :: rest =>
    match scan isBlock n (i + 1) rest with
    | some r => some r
    | none =>
      let (sl, pre) := stripAt isBlock n i l
      let t := trimRight sl
      if t.isEmpty then none else some (i, t, pre)

/-- `checkText` of godot.go. -/
def checkText (comment : GoStr) : position × Bool :=
  let isBlock := startsWith comment ("/*".data)
  let lines := splitLines comment
  match scan isBlock lines.length 0 lines with
  | none => (⟨0, 0⟩, true)
  | some (i, line, pre) =>
    if hasSuffix line lastChars then (⟨0, 0⟩, true)
    else (⟨i + 1, runeLen (pre ++ line) + 1⟩, false)

/-- The body of the `checkComments` loop of godot.go for a single comment:
skip empty groups, run `checkText` on the extracted text, build the issue
and its replacement with the defensive bounds checks.  (All columns are at
least 1 when an issue exists, so the `- 1` arithmetic agrees with Go's.) -/
def commentIssue (c : comment) : Except GoStr (Option Issue) :=
  if c.astList.isEmpty then .ok none
  else
    let text := getText c.astList
    let (pos, ok) := checkText text
    if ok then .ok none
    else
      let issPos : Position :=
        { filename := c.filename, offset := c.offset,
          line := pos.line + c.startLine - 1, column := pos.column + c.startColumn - 1 }
      if c.lines.length ≤ pos.line - 1 then .error (errLine c.filename issPos.line)
      else
        let original := c.lines.getD (pos.line - 1) []
        if original.length < issPos.column - 1 then
          .error (errColumn c.filename issPos.line issPos.column)
        else
          .ok (some { pos := issPos, message := noPeriodMessage,
                      replacement := original.take (issPos.column - 1) ++
                        '.' :: original.drop (issPos.column - 1) })

/-- `checkComments` of godot.go. -/
def checkComments : List comment → Except GoStr (List Issue)
  | [] => .ok []
  | c :: rest =>
    match commentIssue c with
    | .error e => .error e
    | .ok head =>
      match checkComments rest with
      | .error e => .error e
      | .ok tail =>
        match head with
        | none => .ok tail
        | some iss => .ok (iss :: tail)

/-- Lexicographic (bytewise, equivalently runewise) Go string comparison. -/
def strLt : GoStr → GoStr → Bool
  | [], [] => false
  | [], _ :: _ => true
  | _ :: _, [] => false
  | a :: s, b :: t => if a.toNat < b.toNat then true else if a = b then strLt s t else false

/-- The comparison of `sortIssues`. -/
def issueLess (a b : Issue) : Bool :=
  if a.pos.filename ≠ b.pos.filename then strLt a.pos.filename b.pos.filename
  else if a.pos.line ≠ b.pos.line then decide (a.pos.line < b.pos.line)
  else decide (a.pos.column < b.pos.column)

/-- Sorted insertion w.r.t. `issueLess`. -/
def insertIssue (iss : Issue) : List Issue → List Issue
  | [] => [iss]
  | x :: rest => if issueLess iss x then iss :: x :: rest else x :: insertIssue iss rest

/-- `sortIssues` (insertion sort; `sort.Slice` leaves the order of ties
unspecified, and no two issues of this development ever tie). -/
def sortIssues : List Issue → List Issue
  | [] => []
  | x :: rest => insertIssue x (sortIssues rest)

/-- `Run` of godot.go. -/
def Run (file : GoFile) (scope : Scope) : Except GoStr (List Issue) :=
  match getComments file scope with
  | .error e => .error ("get comments: ".data ++ e)
  | .ok comments =>
    match checkComments comments with
    | .error e => .error ("check comments: ".data ++ e)
    | .ok issues => .ok (sortIssues issues)

/-- The `slice -> map` step of `Fix`: Go map insertion keyed by line, so the
last issue written for a line wins. -/
def lineMap (issues : List Issue) (n : Nat) : Option Issue :=
  (issues.filter (fun iss => iss.pos.line == n)).getLast?

/-- The line-replacement loop of `Fix`; `i` is the 0-based index of the head
of the remaining list. -/
def replaceLines (m : Nat → Option Issue) : Nat → List GoStr → List GoStr
  | _, [] => []
  | i, l :: rest =>
    (match m (i + 1) with
     | some iss => iss.replacement
     | none => l) :: replaceLines m (i + 1) rest

/-- `Fix` of godot.go, with the file contents passed in place of the read
from disk; `none` models the `nil, nil` return for empty content. -/
def Fix (content : GoStr) (file : GoFile) (scope : Scope) :
    Except GoStr (Option GoStr) :=
  if content.isEmpty then .ok none
  else
    match Run file scope with
    | .error e => .error ("run linter: ".data ++ e)
    | .ok issues =>
      .ok (some (fixJoin (replaceLines (lineMap issues) 0 (splitLines content))))

end V1

/-! ## The later snapshot: `getters.go` text extraction and the
`checkPeriod` / `checkCapital` checks -/

namespace V2

/-- `lastChars` of the later snapshot (includes the colon). -/
def lastChars : List GoStr :=
  [".".data, "?".data, "!".data, ".)".data, "?)".data, "!)".data, ":".data]

/-- `noPeriodMessage`. -/
def noPeriodMessage : GoStr := "Comment should end in a period".data

/-- `noCapitalMessage`. -/
def noCapitalMessage : GoStr := "Sentence should start with a capital letter".data

/-- `getText` of getters.go: strips the comment markers; special lines become
empty lines; special blocks become the empty string. -/
def getText (list : List GoStr) : GoStr :=
  if list.length = 1 && startsWith (list.headD []) ("/*".data) &&
      isSpecialBlock (list.headD []) then []
  else
    let s := list.foldl (fun s c =>
      let isBlock := startsWith c ("/*".data)
      let text := if isBlock then trimSuffix (trimLead c ("/*".data)) ("*/".data) else c
      (splitLines text).foldl (fun s line =>
        if isSpecialLine line then s ++ ['\n']
        else s ++ (if !isBlock then trimLead line ("//".data) else line) ++ ['\n']) s) []
    if s.isEmpty then [] else s.dropLast

/-- The countdown loop of `checkPeriod`: index and right-trimmed text of the
last line that is nonempty after trimming. -/
def lastNonBlank : List GoStr → Option (Nat × GoStr)
  | [] => none
  | l :: rest =>
    match lastNonBlank rest with
    | some (i, t) => some (i + 1, t)
    | none =>
      let t := trimRight l
      if t.isEmpty then none else some (0, t)

/-- `checkPeriod` of the later snapshot; positions are inside the given text. -/
def checkPeriod (comment : GoStr) : position × Bool :=
  match lastNonBlank (splitLines comment) with
  | none => (⟨0, 0⟩, true)
  | some (i, line) =>
    if hasSuffix line lastChars then (⟨0, 0⟩, true)
    else (⟨i + 1, runeLen line + 1⟩, false)

/-- The scanner states of `checkCapital` (`empty, endChar, endOfSentence`). -/
def empty : Nat := 1

/-- See `empty`. -/
def endChar : Nat := 2

/-- See `empty`. -/
def endOfSentence : Nat := 3

/-- One iteration of the `checkCapital` loop over one rune; the accumulator
carries `(state, pos, pp)` exactly as the Go loop's mutable variables do
(`pos.column++` happens first, `"\n"` resets it to zero). -/
def capitalStep : Nat × position × List position → Char → Nat × position × List position
  | (state, pos, pp), r =>
    let col := pos.column + 1
    if r = '\n' then
      (if state = endChar then endOfSentence else state, ⟨pos.line + 1, 0⟩, pp)
    else if r = '.' || r = '!' || r = '?' then (endChar, ⟨pos.line, col⟩, pp)
    else if r = ')' && state = endChar then (state, ⟨pos.line, col⟩, pp)
    else if r = ' ' then
      (if state = endChar then endOfSentence else state, ⟨pos.line, col⟩, pp)
    else
      (empty, ⟨pos.line, col⟩,
        if state = endOfSentence && goIsLower r then pp ++ [⟨pos.line, col⟩] else pp)

/-- `checkCapital` of the later snapshot: flag every lowercase rune at a
sentence start; the first sentence is skipped for declaration comments. -/
def checkCapital (comment : GoStr) (skipFirst : Bool) : List position :=
  (comment.foldl capitalStep
    ((if skipFirst then empty else endOfSentence), ⟨1, 0⟩, [])).2.2

/-- The `pos.column += 2` marker shift of `checkCommentForPeriod`: applied on
every line of a `//` comment and on the first line of a `/*` comment. -/
def shiftPos (c : comment) (pos : position) : position :=
  let isBlock := startsWith (c.astList.headD []) ("/*".data)
  if (isBlock && pos.line = 1) || !isBlock then ⟨pos.line, pos.column + 2⟩ else pos

/-- `checkCommentForPeriod` of the later snapshot: run `checkPeriod` on the
stripped text, shift the column past the `//` / `/*` marker, and build the
issue and replacement with the defensive bounds checks. -/
def checkCommentForPeriod (c : comment) : Except GoStr (Option Issue) :=
  let text := getText c.astList
  let (pos, ok) := checkPeriod text
  if ok then .ok none
  else
    let pos : position := shiftPos c pos
    let issPos : Position :=
      { filename := c.filename, offset := c.offset,
        line := pos.line + c.startLine - 1, column := pos.column + c.startColumn - 1 }
    if c.lines.length ≤ pos.line - 1 then .error (errLine c.filename issPos.line)
    else
      let original := c.lines.getD (pos.line - 1) []
      if original.length < issPos.column - 1 then
        .error (errColumn c.filename issPos.line issPos.column)
      else
        .ok (some { pos := issPos, message := noPeriodMessage,
                    replacement := original.take (issPos.column - 1) ++
                      '.' :: original.drop (issPos.column - 1) })

end V2

deriving instance DecidableEq for Except

/-! ## Basic lemmas -/

theorem lastNonBlank_none_iff (ls : List GoStr) :
    V2.lastNonBlank ls = none ↔ ∀ l ∈ ls, trimRight l = [] := by
  induction ls with
  | nil => simp [V2.lastNonBlank]
  | cons l rest ih =>
    simp only [V2.lastNonBlank]
    cases h : V2.lastNonBlank rest with
    | some r =>
      simp only [List.mem_cons]
      constructor
      · intro hc; cases hc
      · intro hall
        have : V2.lastNonBlank rest = none := (ih.mpr (fun x hx => hall x (Or.inr hx)))
        rw [h] at this; cases this
    | none =>
      simp only [List.mem_cons]
      constructor
      · intro hc
        by_cases he : (trimRight l).isEmpty
        · intro x hx
          rcases hx with rfl | hx
          · exact List.isEmpty_iff.mp he
          · exact ih.mp h x hx
        · simp [he] at hc
      · intro hall
        have : (trimRight l).isEmpty := by
          rw [hall l (Or.inl rfl)]; rfl
        simp [this]

/-! ## Claims -/

/-- **C2.**  For every comment text whose last non-blank line (after trimming
trailing whitespace; placeholder lines produced by `getText` are blank) ends
with one of `.`, `?`, `!`, `.)`, `?)`, `!)`, `:`, `checkPeriod` reports no
issue; and if every line is blank it also reports no issue. -/
theorem checkPeriod_terminator_ok (text : GoStr) :
    ((∀ l ∈ splitLines text, trimRight l = []) → V2.checkPeriod text = (⟨0, 0⟩, true)) ∧
    (∀ i l, V2.lastNonBlank (splitLines text) = some (i, l) →
      hasSuffix l V2.lastChars = true → V2.checkPeriod text = (⟨0, 0⟩, true)) := by
  constructor
  · intro h
    unfold V2.checkPeriod
    rw [(lastNonBlank_none_iff (splitLines text)).mpr h]
  · intro i l h hs
    unfold V2.checkPeriod
    rw [h]
    simp [hs]

/-- Witness for C2: a text ending in a period, and an all-blank text. -/
theorem checkPeriod_terminator_ok_w :
    V2.checkPeriod " Hello, world.".data = (⟨0, 0⟩, true) ∧
    V2.checkPeriod "  \n\t".data = (⟨0, 0⟩, true) :=
  ⟨(checkPeriod_terminator_ok (" Hello, world.".data)).2 0 (" Hello, world.".data)
      (by decide) (by decide),
   (checkPeriod_terminator_ok ("  \n\t".data)).1 (by decide)⟩

/-- **C5.**  The single-line comment `// Hello, world` starting at source
column 1 yields exactly one period issue at column 16 with replacement
`// Hello, world.`. -/
theorem period_hello_world :
    V2.checkCommentForPeriod
      { astList := ["// Hello, world".data], lines := ["// Hello, world".data],
        filename := "main.go".data, offset := 0, startLine := 1, startColumn := 1 } =
    Except.ok (some
      { pos := { filename := "main.go".data, offset := 0, line := 1, column := 16 },
        message := V2.noPeriodMessage,
        replacement := "// Hello, world.".data }) := by decide

/-- **C6.**  `checkCapital` has no abbreviation handling: on the repository's
own test input "One two, i.e. hello, world, e.g. e. g. word and etc. word"
(checks_test.go, case "sentence with abbreviations", expected no issues) it
flags the lowercase word after every abbreviation period. -/
theorem checkCapital_flags_abbreviations :
    V2.checkCapital
        "One two, i.e. hello, world, e.g. e. g. word and etc. word".data false =
      [⟨1, 15⟩, ⟨1, 34⟩, ⟨1, 37⟩, ⟨1, 40⟩, ⟨1, 54⟩] := by decide

/-- **C8 counterexample.**  For a whole-comment special block (CGO), `getText`
returns the empty string — one line — while the comment spans three lines, so
normalization does not preserve the line count there. -/
theorem getText_special_block_cex :
    numLines (V2.getText ["/*\n#include <stdio.h>\n*/".data]) ≠
      numLines ("/*\n#include <stdio.h>\n*/".data) := by decide

/-- **C7 counterexample.**  When the computed replacement column is out of
bounds for the raw line, `checkCommentForPeriod` returns an error — it does
not return an issue carrying the unmodified line. -/
theorem replacement_oob_cex :
    V2.checkCommentForPeriod
      { astList := ["// hello".data], lines := [[]], filename := "main.go".data,
        offset := 0, startLine := 1, startColumn := 1 } =
    Except.error (errColumn ("main.go".data) 1 9) := by decide

theorem shiftPos_line (c : comment) (p : position) : (V2.shiftPos c p).line = p.line := by
  simp only [V2.shiftPos]
  split <;> rfl

/-- **C1.**  For a comment text whose last non-blank line (after right
trimming: `l`) does not end with an accepted terminator, `checkPeriod`
reports exactly one position at that line with column `runeLen l + 1`, and
`checkCommentForPeriod` returns exactly one issue whose replacement is the
original raw line with a period inserted at the issue's column (the in-text
column shifted by the comment marker and the comment's start column). -/
theorem checkPeriod_missing_terminator (c : comment) (i : Nat) (l : GoStr)
    (h1 : V2.lastNonBlank (splitLines (V2.getText c.astList)) = some (i, l))
    (h2 : hasSuffix l V2.lastChars = false)
    (hline : i < c.lines.length)
    (hcol : ((V2.shiftPos c ⟨i + 1, runeLen l + 1⟩).column + c.startColumn - 1) - 1 ≤
      (c.lines.getD i []).length) :
    V2.checkPeriod (V2.getText c.astList) = (⟨i + 1, runeLen l + 1⟩, false) ∧
    V2.checkCommentForPeriod c =
      Except.ok (some
        { pos := { filename := c.filename, offset := c.offset,
                   line := i + 1 + c.startLine - 1,
                   column := (V2.shiftPos c ⟨i + 1, runeLen l + 1⟩).column + c.startColumn - 1 },
          message := V2.noPeriodMessage,
          replacement :=
            (c.lines.getD i []).take
              (((V2.shiftPos c ⟨i + 1, runeLen l + 1⟩).column + c.startColumn - 1) - 1) ++
            '.' :: (c.lines.getD i []).drop
              (((V2.shiftPos c ⟨i + 1, runeLen l + 1⟩).column + c.startColumn - 1) - 1) }) := by
  have hcp : V2.checkPeriod (V2.getText c.astList) = (⟨i + 1, runeLen l + 1⟩, false) := by
    unfold V2.checkPeriod
    rw [h1]
    simp [h2]
  refine ⟨hcp, ?_⟩
  unfold V2.checkCommentForPeriod
  simp only [hcp, shiftPos_line, Nat.add_sub_cancel]
  rw [if_neg (by omega : ¬ (c.lines.length ≤ i))]
  rw [if_neg (by omega : ¬ ((c.lines.getD i []).length <
    (V2.shiftPos c ⟨i + 1, runeLen l + 1⟩).column + c.startColumn - 1 - 1))]
  simp

/-- Witness for C1: the comment `// Hi there` on file line 4. -/
theorem checkPeriod_missing_terminator_w :
    V2.checkCommentForPeriod
      { astList := ["// Hi there".data], lines := ["// Hi there".data],
        filename := "a.go".data, offset := 0, startLine := 4, startColumn := 1 } =
      Except.ok (some
        { pos := { filename := "a.go".data, offset := 0, line := 4, column := 12 },
          message := V2.noPeriodMessage, replacement := "// Hi there.".data }) := by
  have h := checkPeriod_missing_terminator
    { astList := ["// Hi there".data], lines := ["// Hi there".data],
      filename := "a.go".data, offset := 0, startLine := 4, startColumn := 1 }
    0 (" Hi there".data) (by decide) (by decide) (by decide) (by decide)
  exact h.2.trans (by decide)

theorem splitLines_ne_nil (s : GoStr) : splitLines s ≠ [] := by
  induction s with
  | nil => simp [splitLines]
  | cons c rest ih =>
    simp only [splitLines]
    split
    · simp
    · split <;> simp

theorem joinNl_splitLines (s : GoStr) : joinNl (splitLines s) = s := by
  induction s with
  | nil => rfl
  | cons c rest ih =>
    simp only [splitLines]
    by_cases hc : c = '\n'
    · subst hc
      rw [if_pos rfl]
      rcases h : splitLines rest with _ | ⟨l, ls⟩
      · exact absurd h (splitLines_ne_nil rest)
      · rw [h] at ih
        simp only [joinNl]
        rw [ih]
        rfl
    · rw [if_neg hc]
      rcases h : splitLines rest with _ | ⟨l, ls⟩
      · exact absurd h (splitLines_ne_nil rest)
      · rw [h] at ih
        cases ls with
        | nil => simp only [joinNl] at ih ⊢; rw [ih]
        | cons l2 ls2 => simp only [joinNl] at ih ⊢; rw [List.cons_append, ih]

theorem noNl_splitLines (s : GoStr) : ∀ l ∈ splitLines s, '\n' ∉ l := by
  induction s with
  | nil => simp [splitLines]
  | cons c rest ih =>
    simp only [splitLines]
    by_cases hc : c = '\n'
    · subst hc
      rw [if_pos rfl]
      intro x hx
      rcases List.mem_cons.mp hx with rfl | hx2
      · simp
      · exact ih x hx2
    · rw [if_neg hc]
      rcases h : splitLines rest with _ | ⟨l, ls⟩
      · exact absurd h (splitLines_ne_nil rest)
      · rw [h] at ih
        intro x hx
        rcases List.mem_cons.mp hx with rfl | hx2
        · intro hmem
          rcases List.mem_cons.mp hmem with rfl | hmem2
          · exact hc rfl
          · exact ih l (List.mem_cons_self l ls) hmem2
        · exact ih x (List.mem_cons_of_mem l hx2)

theorem capitalStep_newline (st : Nat) (pos : position) (acc : List position) :
    V2.capitalStep (st, pos, acc) '\n' =
      (if st = V2.endChar then V2.endOfSentence else st, ⟨pos.line + 1, 0⟩, acc) := by
  simp [V2.capitalStep]

theorem capitalStep_char (st : Nat) (pos : position) (acc : List position)
    (r : Char) (h : r ≠ '\n') :
    (∃ st2, V2.capitalStep (st, pos, acc) r = (st2, ⟨pos.line, pos.column + 1⟩, acc)) ∨
    ((∃ st2, V2.capitalStep (st, pos, acc) r =
        (st2, ⟨pos.line, pos.column + 1⟩, acc ++ [⟨pos.line, pos.column + 1⟩])) ∧
      goIsLower r = true) := by
  simp only [V2.capitalStep]
  rw [if_neg h]
  split
  · exact Or.inl ⟨_, rfl⟩
  · split
    · exact Or.inl ⟨_, rfl⟩
    · split
      · exact Or.inl ⟨_, rfl⟩
      · split
        · rename_i hcond
          exact Or.inr ⟨⟨_, rfl⟩, by
            simp only [Bool.and_eq_true, decide_eq_true_eq] at hcond
            exact hcond.2⟩
        · exact Or.inl ⟨_, rfl⟩

theorem capLine (l : GoStr) (hl : '\n' ∉ l) (st ln col : Nat) (acc : List position) :
    ∃ st2 acc2,
      l.foldl V2.capitalStep (st, ⟨ln, col⟩, acc) = (st2, ⟨ln, col + l.length⟩, acc2) ∧
      ∀ p ∈ acc2, p ∈ acc ∨
        (p.line = ln ∧ col < p.column ∧ p.column ≤ col + l.length ∧
          ∃ ch, l.get? (p.column - col - 1) = some ch ∧ goIsLower ch = true) := by
  induction l generalizing st col acc with
  | nil => exact ⟨st, acc, rfl, fun p hp => Or.inl hp⟩
  | cons c rest ih =>
    have hc : c ≠ '\n' := fun hh => hl (hh ▸ List.mem_cons_self c rest)
    have hrest : '\n' ∉ rest := fun hh => hl (List.mem_cons_of_mem c hh)
    have hlen : (c :: rest).length = rest.length + 1 := List.length_cons c rest
    rcases capitalStep_char st ⟨ln, col⟩ acc c hc with ⟨st2, hstep⟩ | ⟨⟨st2, hstep⟩, hlow⟩
    · rcases ih hrest st2 (col + 1) acc with ⟨st3, acc3, hfold, hmem⟩
      refine ⟨st3, acc3, ?_, ?_⟩
      · rw [List.foldl_cons, hstep, hfold, hlen]
        have : col + 1 + rest.length = col + (rest.length + 1) := by omega
        rw [this]
      · intro p hp
        rcases hmem p hp with hin | ⟨h1, h2, h3, ch, h4, h5⟩
        · exact Or.inl hin
        · refine Or.inr ⟨h1, by omega, by rw [hlen]; omega, ch, ?_, h5⟩
          have : p.column - col - 1 = (p.column - (col + 1) - 1) + 1 := by omega
          rw [this, List.get?_cons_succ]
          exact h4
    · rcases ih hrest st2 (col + 1) (acc ++ [⟨ln, col + 1⟩]) with ⟨st3, acc3, hfold, hmem⟩
      refine ⟨st3, acc3, ?_, ?_⟩
      · rw [List.foldl_cons, hstep, hfold, hlen]
        have : col + 1 + rest.length = col + (rest.length + 1) := by omega
        rw [this]
      · intro p hp
        rcases hmem p hp with hin | ⟨h1, h2, h3, ch, h4, h5⟩
        · rcases List.mem_append.mp hin with hin2 | hin3
          · exact Or.inl hin2
          · have hpp : p = ⟨ln, col + 1⟩ := by simpa using hin3
            have hpl : p.line = ln := by rw [hpp]
            have hpc : p.column = col + 1 := by rw [hpp]
            refine Or.inr ⟨hpl, by omega, by rw [hlen]; omega, c, ?_, hlow⟩
            have : p.column - col - 1 = 0 := by omega
            rw [this]
            rfl
        · refine Or.inr ⟨h1, by omega, by rw [hlen]; omega, ch, ?_, h5⟩
          have : p.column - col - 1 = (p.column - (col + 1) - 1) + 1 := by omega
          rw [this, List.get?_cons_succ]
          exact h4

theorem capLines (ls : List GoStr) (hls : ∀ l ∈ ls, '\n' ∉ l) (st ln : Nat)
    (acc : List position) :
    ∀ p ∈ ((joinNl ls).foldl V2.capitalStep (st, ⟨ln, 0⟩, acc)).2.2,
      p ∈ acc ∨
      (∃ j, j < ls.length ∧ p.line = ln + j ∧ 1 ≤ p.column ∧
        ∃ ch, (ls.getD j []).get? (p.column - 1) = some ch ∧ goIsLower ch = true) := by
  induction ls generalizing st ln acc with
  | nil => intro p hp; exact Or.inl hp
  | cons l rest ih =>
    intro p hp
    cases rest with
    | nil =>
      simp only [joinNl] at hp
      rcases capLine l (hls l (List.mem_cons_self l [])) st ln 0 acc with
        ⟨st2, acc2, hfold, hmem⟩
      rw [hfold] at hp
      rcases hmem p hp with hin | ⟨h1, h2, h3, ch, h4, h5⟩
      · exact Or.inl hin
      · refine Or.inr ⟨0, by simp, by omega, by omega, ch, ?_, h5⟩
        have : p.column - 0 - 1 = p.column - 1 := by omega
        rw [this] at h4
        exact h4
    | cons l2 rest2 =>
      have hjoin : joinNl (l :: l2 :: rest2) = l ++ '\n' :: joinNl (l2 :: rest2) := rfl
      rw [hjoin, List.foldl_append] at hp
      rcases capLine l (hls l (List.mem_cons_self l (l2 :: rest2))) st ln 0 acc with
        ⟨st2, acc2, hfold, hmem⟩
      rw [hfold, List.foldl_cons, capitalStep_newline] at hp
      have ih2 := ih (fun x hx => hls x (List.mem_cons_of_mem l hx))
        (if st2 = V2.endChar then V2.endOfSentence else st2) (ln + 1) acc2 p hp
      rcases ih2 with hin | ⟨j, hj1, hj2, hj3, ch, hj4, hj5⟩
      · rcases hmem p hin with hin2 | ⟨h1, h2, h3, ch, h4, h5⟩
        · exact Or.inl hin2
        · refine Or.inr ⟨0, by simp, by omega, by omega, ch, ?_, h5⟩
          have : p.column - 0 - 1 = p.column - 1 := by omega
          rw [this] at h4
          exact h4
      · refine Or.inr ⟨j + 1, by simpa using hj1, by omega, hj3, ch, ?_, hj5⟩
        simpa using hj4

/-- **C9.**  Both checkers compute in-text columns in runes: the period
check's column is the rune length of the trimmed last non-blank line plus
one, and every position the capital check reports indexes the rune sequence
of its line (the flagged rune sits at rune index `column - 1`). -/
theorem columns_rune_counts :
    (∀ text i l, V2.lastNonBlank (splitLines text) = some (i, l) →
        hasSuffix l V2.lastChars = false →
        V2.checkPeriod text = (⟨i + 1, runeLen l + 1⟩, false)) ∧
    (∀ text skip p, p ∈ V2.checkCapital text skip →
        1 ≤ p.column ∧
        ∃ ch, ((splitLines text).getD (p.line - 1) []).get? (p.column - 1) = some ch ∧
          goIsLower ch = true) := by
  constructor
  · intro text i l h1 h2
    unfold V2.checkPeriod
    rw [h1]
    simp [h2]
  · intro text skip p hp
    unfold V2.checkCapital at hp
    rw [← joinNl_splitLines text] at hp
    have hres := capLines (splitLines text) (noNl_splitLines text) _ 1 [] p hp
    rcases hres with hin | ⟨j, hj1, hj2, hj3, ch, hj4, hj5⟩
    · cases hin
    · have hidx : p.line - 1 = j := by omega
      rw [hidx]
      exact ⟨hj3, ch, hj4, hj5⟩

/-- Witness for C9 on Cyrillic text, where rune and byte counts differ
(9 runes vs 18 bytes). -/
theorem columns_rune_counts_w :
    (V2.checkPeriod ("Кириллица".data) = (⟨1, runeLen ("Кириллица".data) + 1⟩, false) ∧
      runeLen ("Кириллица".data) = 9 ∧ utf8Len ("Кириллица".data) = 18) ∧
    (1 ≤ (⟨1, 12⟩ : position).column ∧
      ∃ ch, ((splitLines ("Кириллица? кириллица!".data)).getD
          ((⟨1, 12⟩ : position).line - 1) []).get? ((⟨1, 12⟩ : position).column - 1) =
            some ch ∧ goIsLower ch = true) :=
  ⟨⟨columns_rune_counts.1 ("Кириллица".data) 0 ("Кириллица".data) (by decide) (by decide),
    by decide, by decide⟩,
   columns_rune_counts.2 ("Кириллица? кириллица!".data) false ⟨1, 12⟩ (by decide)⟩

/-- **C7 amended.**  When the computed replacement column is out of bounds
for the raw line, `checkCommentForPeriod` returns the defensive error (and
no issue), rather than panicking or corrupting data. -/
theorem replacement_oob_error (c : comment) (pos : position)
    (h1 : V2.checkPeriod (V2.getText c.astList) = (pos, false))
    (hline : pos.line - 1 < c.lines.length)
    (hcol : (c.lines.getD (pos.line - 1) []).length <
      ((V2.shiftPos c pos).column + c.startColumn - 1) - 1) :
    V2.checkCommentForPeriod c =
      Except.error (errColumn c.filename (pos.line + c.startLine - 1)
        ((V2.shiftPos c pos).column + c.startColumn - 1)) := by
  unfold V2.checkCommentForPeriod
  simp only [h1, shiftPos_line]
  rw [if_neg (by omega : ¬ (c.lines.length ≤ pos.line - 1))]
  rw [if_pos hcol]
  simp

/-- Witness for the amended C7: the raw line attached to the comment is
empty, so the column 9 computed from the text is out of bounds. -/
theorem replacement_oob_error_w :
    V2.checkCommentForPeriod
      { astList := ["// hello".data], lines := [[]], filename := "b.go".data,
        offset := 0, startLine := 2, startColumn := 1 } =
      Except.error (errColumn ("b.go".data) 2 9) :=
  (replacement_oob_error
    { astList := ["// hello".data], lines := [[]], filename := "b.go".data,
      offset := 0, startLine := 2, startColumn := 1 }
    ⟨1, 7⟩ (by decide) (by decide) (by decide)).trans (by decide)

theorem getAllComments_mem (file : GoFile) (cs : List CommentGroup) (as2 : List comment)
    (h : getAllComments file cs = .ok as2) : ∀ c ∈ cs, mkComment file c ∈ as2 := by
  induction cs generalizing as2 with
  | nil => intro c hc; cases hc
  | cons c0 rest ih =>
    intro c hc
    unfold getAllComments at h
    by_cases hg : file.rendered.length ≤ c0.endLine
    · rw [if_pos hg] at h; cases h
    · rw [if_neg hg] at h
      cases hrest : getAllComments file rest with
      | error e => rw [hrest] at h; cases h
      | ok cc =>
        rw [hrest] at h
        cases h
        rcases List.mem_cons.mp hc with rfl | hc2
        · exact List.mem_cons_self _ _
        · exact List.mem_cons_of_mem _ (ih cc hrest c hc2)

theorem getTopLevelComments_mem (file : GoFile) (cs : List CommentGroup)
    (ts : List comment) (h : getTopLevelComments file cs = .ok ts) :
    ∀ c ∈ cs, c.posColumn = 1 → mkComment file c ∈ ts := by
  induction cs generalizing ts with
  | nil => intro c hc; cases hc
  | cons c0 rest ih =>
    intro c hc hcol
    unfold getTopLevelComments at h
    by_cases h1 : c0.posColumn ≠ 1
    · rw [if_pos h1] at h
      rcases List.mem_cons.mp hc with rfl | hc2
      · exact absurd hcol h1
      · exact ih ts h c hc2 hcol
    · rw [if_neg h1] at h
      by_cases hg : file.rendered.length ≤ c0.endLine
      · rw [if_pos hg] at h; cases h
      · rw [if_neg hg] at h
        cases hrest : getTopLevelComments file rest with
        | error e => rw [hrest] at h; cases h
        | ok cc =>
          rw [hrest] at h
          cases h
          rcases List.mem_cons.mp hc with rfl | hc2
          · exact List.mem_cons_self _ _
          · exact List.mem_cons_of_mem _ (ih cc hrest c hc2 hcol)

theorem getTopLevelComments_sub_all (file : GoFile) (cs : List CommentGroup)
    (ts as2 : List comment) (ht : getTopLevelComments file cs = .ok ts)
    (ha : getAllComments file cs = .ok as2) : ∀ x ∈ ts, x ∈ as2 := by
  induction cs generalizing ts as2 with
  | nil =>
    cases ht
    intro x hx
    cases hx
  | cons c0 rest ih =>
    intro x hx
    unfold getTopLevelComments at ht
    unfold getAllComments at ha
    by_cases hg : file.rendered.length ≤ c0.endLine
    · rw [if_pos hg] at ha; cases ha
    · rw [if_neg hg] at ha
      cases hrestA : getAllComments file rest with
      | error e => rw [hrestA] at ha; cases ha
      | ok ccA =>
        rw [hrestA] at ha
        cases ha
        by_cases h1 : c0.posColumn ≠ 1
        · rw [if_pos h1] at ht
          exact List.mem_cons_of_mem _ (ih ts ccA ht hrestA x hx)
        · rw [if_neg h1, if_neg hg] at ht
          cases hrestT : getTopLevelComments file rest with
          | error e => rw [hrestT] at ht; cases ht
          | ok ccT =>
            rw [hrestT] at ht
            cases ht
            rcases List.mem_cons.mp hx with rfl | hx2
            · exact List.mem_cons_self _ _
            · exact List.mem_cons_of_mem _ (ih ccT ccA hrestT hrestA x hx2)

theorem getBlockCommentsInner_mem (file : GoFile) (lp rp : Nat)
    (cs : List CommentGroup) (bs : List comment)
    (h : getBlockCommentsInner file lp rp cs = .ok bs) :
    ∀ x ∈ bs, ∃ c ∈ cs, x = mkComment file c := by
  induction cs generalizing bs with
  | nil => cases h; intro x hx; cases hx
  | cons c0 rest ih =>
    intro x hx
    unfold getBlockCommentsInner at h
    by_cases h1 : lp > c0.pos ∨ c0.pos > rp
    · rw [if_pos h1] at h
      rcases ih bs h x hx with ⟨c, hc, rfl⟩
      exact ⟨c, List.mem_cons_of_mem _ hc, rfl⟩
    · rw [if_neg h1] at h
      by_cases h2 : c0.posColumn ≠ 2
      · rw [if_pos h2] at h
        rcases ih bs h x hx with ⟨c, hc, rfl⟩
        exact ⟨c, List.mem_cons_of_mem _ hc, rfl⟩
      · rw [if_neg h2] at h
        by_cases hg : file.rendered.length ≤ c0.endLine
        · rw [if_pos hg] at h; cases h
        · rw [if_neg hg] at h
          cases hrest : getBlockCommentsInner file lp rp rest with
          | error e => rw [hrest] at h; cases h
          | ok cc =>
            rw [hrest] at h
            cases h
            rcases List.mem_cons.mp hx with rfl | hx2
            · exact ⟨c0, List.mem_cons_self _ _, rfl⟩
            · rcases ih cc hrest x hx2 with ⟨c, hc, rfl⟩
              exact ⟨c, List.mem_cons_of_mem _ hc, rfl⟩

theorem getBlockComments_mem (file : GoFile) (ds : List Decl) (bs : List comment)
    (h : getBlockComments file ds = .ok bs) :
    ∀ x ∈ bs, ∃ c ∈ file.comments, x = mkComment file c := by
  induction ds generalizing bs with
  | nil => cases h; intro x hx; cases hx
  | cons d rest ih =>
    intro x hx
    cases d with
    | func doc => exact ih bs h x hx
    | gen lp rp doc =>
      unfold getBlockComments at h
      by_cases h0 : lp = 0
      · rw [if_pos h0] at h
        exact ih bs h x hx
      · rw [if_neg h0] at h
        cases hinner : getBlockCommentsInner file lp rp file.comments with
        | error e => rw [hinner] at h; cases h
        | ok cc =>
          rw [hinner] at h
          cases hrest : getBlockComments file rest with
          | error e => rw [hrest] at h; cases h
          | ok cc2 =>
            rw [hrest] at h
            cases h
            rcases List.mem_append.mp hx with hx1 | hx2
            · exact getBlockCommentsInner_mem file lp rp file.comments cc hinner x hx1
            · exact ih cc2 hrest x hx2

theorem getDeclarationComments_mem (file : GoFile) (ds : List Decl) (dr : List comment)
    (h : getDeclarationComments file ds = .ok dr) :
    ∀ x ∈ dr, ∃ d ∈ ds, ∃ doc, declDoc d = some doc ∧ x = mkComment file doc := by
  induction ds generalizing dr with
  | nil => cases h; intro x hx; cases hx
  | cons d rest ih =>
    intro x hx
    unfold getDeclarationComments at h
    cases hdoc : declDoc d with
    | none =>
      simp only [hdoc] at h
      rcases ih dr h x hx with ⟨d2, hd2, doc, hdoc2, rfl⟩
      exact ⟨d2, List.mem_cons_of_mem _ hd2, doc, hdoc2, rfl⟩
    | some doc =>
      simp only [hdoc] at h
      by_cases hg : file.rendered.length ≤ doc.endLine
      · rw [if_pos hg] at h; cases h
      · rw [if_neg hg] at h
        cases hrest : getDeclarationComments file rest with
        | error e => rw [hrest] at h; cases h
        | ok cc =>
          rw [hrest] at h
          cases h
          rcases List.mem_cons.mp hx with rfl | hx2
          · exact ⟨d, List.mem_cons_self _ _, doc, hdoc, rfl⟩
          · rcases ih cc hrest x hx2 with ⟨d2, hd2, doc2, hdoc2, rfl⟩
            exact ⟨d2, List.mem_cons_of_mem _ hd2, doc2, hdoc2, rfl⟩

/-- **C10 amended.**  Scope selection is monotone — every comment extracted
under `decl` scope is extracted under `top` scope, and every comment
extracted under `top` scope is extracted under `all` scope — provided every
declaration doc comment starts at column 1 and occurs among the file's
comment groups (the parser guarantees the latter; the former fails for
indented doc comments, see the counterexample). -/
theorem scope_monotone (file : GoFile) (ds ts as2 : List comment)
    (hd : getComments file Scope.decl = .ok ds)
    (ht : getComments file Scope.top = .ok ts)
    (ha : getComments file Scope.all = .ok as2)
    (hdocs : ∀ d ∈ file.decls, ∀ doc, declDoc d = some doc →
      doc.posColumn = 1 ∧ doc ∈ file.comments) :
    (∀ c ∈ ds, c ∈ ts) ∧ (∀ c ∈ ts, c ∈ as2) := by
  unfold getComments at hd ht ha
  rw [if_pos rfl] at ha
  rw [if_neg (by simp : ¬ (Scope.decl = Scope.all))] at hd
  rw [if_neg (by simp : ¬ (Scope.top = Scope.all))] at ht
  cases haa : getAllComments file file.comments with
  | error e => rw [haa] at ha; cases ha
  | ok ar =>
    rw [haa] at ha
    cases ha
    cases hb : getBlockComments file file.decls with
    | error e => rw [hb] at hd; cases hd
    | ok bs =>
      simp only [hb] at hd ht
      simp only [if_true] at ht
      cases hdd : getDeclarationComments file file.decls with
      | error e => rw [hdd] at hd; cases hd
      | ok dr =>
        rw [hdd] at hd
        cases hd
        cases htt : getTopLevelComments file file.comments with
        | error e => rw [htt] at ht; cases ht
        | ok tr =>
          rw [htt] at ht
          cases ht
          constructor
          · intro c hc
            rcases List.mem_append.mp hc with hc1 | hc2
            · exact List.mem_append_left _ hc1
            · rcases getDeclarationComments_mem file file.decls dr hdd c hc2 with
                ⟨d, hdmem, doc, hdoc, rfl⟩
              rcases hdocs d hdmem doc hdoc with ⟨hcol, hmem⟩
              exact List.mem_append_right _
                (getTopLevelComments_mem file file.comments tr htt doc hmem hcol)
          · intro c hc
            rcases List.mem_append.mp hc with hc1 | hc2
            · rcases getBlockComments_mem file file.decls bs hb c hc1 with ⟨cg, hcg, rfl⟩
              exact getAllComments_mem file file.comments as2 haa cg hcg
            · exact getTopLevelComments_sub_all file file.comments tr as2 htt haa c hc2

/-- A function declaration whose doc comment starts at column 2 (an indented
`// doc` line directly above the function; the parser still attaches it as
the declaration's doc comment). -/
def scopeCexDoc : CommentGroup :=
  { list := ["// doc".data], pos := 13, endPos := 19, filename := "main.go".data,
    offset := 12, posLine := 3, posColumn := 2, endLine := 3 }

/-- The file containing `scopeCexDoc`. -/
def scopeCexFile : GoFile :=
  { comments := [scopeCexDoc], decls := [Decl.func (some scopeCexDoc)],
    rendered := ["package p".data, [], "// doc".data, "func F()".data, []] }

/-- **C10 counterexample.**  A declaration doc comment starting at column 2
is extracted under `decl` scope but not under `top` scope, so the `decl`
result is not a subset of the `top` result. -/
theorem scope_monotone_cex :
    getComments scopeCexFile Scope.decl =
      Except.ok [mkComment scopeCexFile scopeCexDoc] ∧
    getComments scopeCexFile Scope.top = Except.ok [] ∧
    ¬ (∀ c ∈ [mkComment scopeCexFile scopeCexDoc], c ∈ ([] : List comment)) := by
  refine ⟨by decide, by decide, ?_⟩
  intro h
  exact absurd (h _ (List.mem_cons_self _ _)) (by decide)

def scopeWDoc : CommentGroup :=
  { list := ["// F does things".data], pos := 12, endPos := 28,
    filename := "main.go".data, offset := 11, posLine := 3, posColumn := 1, endLine := 3 }

def scopeWFile : GoFile :=
  { comments := [scopeWDoc], decls := [Decl.func (some scopeWDoc)],
    rendered := ["package p".data, [], "// F does things".data, "func F()".data, []] }

/-- Witness for the amended C10: a file with one column-1 doc comment. -/
theorem scope_monotone_w :
    (∀ c ∈ [mkComment scopeWFile scopeWDoc], c ∈ [mkComment scopeWFile scopeWDoc]) ∧
    (∀ c ∈ [mkComment scopeWFile scopeWDoc], c ∈ [mkComment scopeWFile scopeWDoc]) :=
  scope_monotone scopeWFile _ _ _ (by decide) (by decide) (by decide) (by decide)

/-- Number of newline characters. -/
def countNl (s : GoStr) : Nat := s.count '\n'

theorem countNl_append (a b : GoStr) : countNl (a ++ b) = countNl a + countNl b :=
  List.count_append '\n' a b

theorem countNl_eq_zero (s : GoStr) (h : '\n' ∉ s) : countNl s = 0 :=
  List.count_eq_zero.mpr h

theorem numLines_eq_countNl (s : GoStr) : numLines s = countNl s + 1 := by
  induction s with
  | nil => rfl
  | cons c rest ih =>
    unfold numLines splitLines
    by_cases hc : c = '\n'
    · subst hc
      rw [if_pos rfl]
      simp only [List.length_cons]
      unfold numLines at ih
      rw [ih]
      simp [countNl, List.count_cons]
    · rw [if_neg hc]
      rcases h : splitLines rest with _ | ⟨l, ls⟩
      · exact absurd h (splitLines_ne_nil rest)
      · unfold numLines at ih
        rw [h] at ih
        simp only [List.length_cons] at ih ⊢
        rw [ih]
        simp [countNl, List.count_cons, hc]

theorem startsWith_append_drop (s p : GoStr) (h : startsWith s p = true) :
    p ++ s.drop p.length = s := by
  have hp : p <+: s := by
    rw [← List.isPrefixOf_iff_prefix]
    exact h
  rcases hp with ⟨t, rfl⟩
  simp

theorem countNl_trimLead (s p : GoStr) (hp : '\n' ∉ p) :
    countNl (trimLead s p) = countNl s := by
  unfold trimLead
  split
  · rename_i h
    conv_rhs => rw [← startsWith_append_drop s p h]
    rw [countNl_append, countNl_eq_zero p hp]
    omega
  · rfl

theorem endsWith_take_append (s p : GoStr) (h : endsWith s p = true) :
    s.take (s.length - p.length) ++ p = s := by
  have hp : p <:+ s := by
    rw [← List.isSuffixOf_iff_suffix]
    exact h
  rcases hp with ⟨t, rfl⟩
  simp

theorem countNl_trimSuffix (s p : GoStr) (hp : '\n' ∉ p) :
    countNl (trimSuffix s p) = countNl s := by
  unfold trimSuffix
  split
  · rename_i h
    conv_rhs => rw [← endsWith_take_append s p h]
    rw [countNl_append, countNl_eq_zero p hp]
    omega
  · rfl

theorem noNl_trimLead (l p : GoStr) (h : '\n' ∉ l) : '\n' ∉ trimLead l p := by
  unfold trimLead
  split
  · intro hmem
    exact h (List.mem_of_mem_drop hmem)
  · exact h

theorem innerFold (ls : List GoStr) (hls : ∀ l ∈ ls, '\n' ∉ l) (isBlock : Bool)
    (s : GoStr) :
    ∃ v,
      (ls.foldl (fun s line =>
        if isSpecialLine line then s ++ ['\n']
        else s ++ (if !isBlock then trimLead line ("//".data) else line) ++ ['\n']) s)
        = s ++ v ∧
      countNl v = ls.length ∧ (ls = [] → v = []) ∧ (ls ≠ [] → ∃ t, v = t ++ ['\n']) := by
  induction ls generalizing s with
  | nil => exact ⟨[], by simp, by simp [countNl], fun _ => rfl, fun h => absurd rfl h⟩
  | cons l rest ih =>
    have hl : '\n' ∉ l := hls l (List.mem_cons_self l rest)
    have hrest : ∀ x ∈ rest, '\n' ∉ x := fun x hx => hls x (List.mem_cons_of_mem l hx)
    -- the value appended for the head line
    have hstep : ∃ u, (if isSpecialLine l then s ++ ['\n']
        else s ++ (if !isBlock then trimLead l ("//".data) else l) ++ ['\n'])
        = s ++ u ++ ['\n'] ∧ '\n' ∉ u := by
      by_cases hsp : isSpecialLine l = true
      · exact ⟨[], by rw [if_pos hsp]; simp, by simp⟩
      · rw [if_neg hsp]
        by_cases hb : isBlock
        · exact ⟨l, by simp [hb], hl⟩
        · refine ⟨trimLead l ("//".data), by simp [hb], noNl_trimLead l _ hl⟩
    rcases hstep with ⟨u, hu, hunl⟩
    rw [List.foldl_cons, hu]
    rcases ih hrest (s ++ u ++ ['\n']) with ⟨v2, hfold, hcount, hnil, hne⟩
    refine ⟨u ++ '\n' :: v2, ?_, ?_, ?_, ?_⟩
    · rw [hfold]
      simp
    · rw [countNl_append]
      rw [countNl_eq_zero u hunl]
      simp only [List.count_cons, List.length_cons]
      have : countNl v2 = rest.length := hcount
      simp [countNl] at this ⊢
      omega
    · intro h; cases h
    · intro _
      cases rest with
      | nil =>
        have : v2 = [] := hnil rfl
        subst this
        exact ⟨u, rfl⟩
      | cons r rs =>
        rcases hne (by simp) with ⟨t, ht⟩
        subst ht
        exact ⟨u ++ '\n' :: t, by simp⟩

theorem outerFold (g : List GoStr) (s : GoStr) :
    ∃ v,
      (g.foldl (fun s c =>
        let isBlock := startsWith c ("/*".data)
        let text := if isBlock then trimSuffix (trimLead c ("/*".data)) ("*/".data) else c
        (splitLines text).foldl (fun s line =>
          if isSpecialLine line then s ++ ['\n']
          else s ++ (if !isBlock then trimLead line ("//".data) else line) ++ ['\n']) s) s)
        = s ++ v ∧
      countNl v = (g.map numLines).sum ∧ (g = [] → v = []) ∧
      (g ≠ [] → ∃ t, v = t ++ ['\n']) := by
  induction g generalizing s with
  | nil => exact ⟨[], by simp, by simp [countNl], fun _ => rfl, fun h => absurd rfl h⟩
  | cons c g' ih =>
    rcases innerFold
        (splitLines (if startsWith c ("/*".data) then
          trimSuffix (trimLead c ("/*".data)) ("*/".data) else c))
        (noNl_splitLines _) (startsWith c ("/*".data)) s with ⟨vc, hvc, hvcount, hvnil, hvne⟩
    rcases ih (s ++ vc) with ⟨v2, hfold2, hcount2, hnil2, hne2⟩
    refine ⟨vc ++ v2, ?_, ?_, ?_, ?_⟩
    · rw [List.foldl_cons]
      simp only [hvc, hfold2]
      simp
    · rw [countNl_append, hvcount, hcount2]
      have h1 : (splitLines (if startsWith c ("/*".data) then
          trimSuffix (trimLead c ("/*".data)) ("*/".data) else c)).length = numLines c := by
        have : (splitLines (if startsWith c ("/*".data) then
            trimSuffix (trimLead c ("/*".data)) ("*/".data) else c)).length
            = numLines (if startsWith c ("/*".data) then
              trimSuffix (trimLead c ("/*".data)) ("*/".data) else c) := rfl
        rw [this, numLines_eq_countNl, numLines_eq_countNl]
        congr 1
        split
        · rw [countNl_trimSuffix _ _ (by decide), countNl_trimLead _ _ (by decide)]
        · rfl
      rw [h1]
      simp
    · intro h; cases h
    · intro _
      rcases hvne (splitLines_ne_nil _) with ⟨t, ht⟩
      cases g' with
      | nil =>
        have : v2 = [] := hnil2 rfl
        subst this
        exact ⟨t, by rw [ht]; simp⟩
      | cons x xs =>
        rcases hne2 (by simp) with ⟨t2, ht2⟩
        subst ht2
        exact ⟨vc ++ t2, by simp⟩

/-- **C8 amended.**  For every nonempty comment group that is not excluded as
a whole special block, `getText` preserves the number of logical lines: the
extracted text has exactly as many lines as the group's comment texts span.
(For a whole-block special exclusion `getText` returns the empty string —
one line — which is why that case is excluded; see the counterexample.) -/
theorem getText_line_count (g : List GoStr) (hne : g ≠ [])
    (hns : ¬ (g.length = 1 ∧ startsWith (g.headD []) ("/*".data) = true ∧
      isSpecialBlock (g.headD []) = true)) :
    numLines (V2.getText g) = (g.map numLines).sum := by
  unfold V2.getText
  rw [if_neg (by simpa using hns)]
  rcases outerFold g [] with ⟨v, hv, hcount, _, hend⟩
  rw [hv]
  rcases hend hne with ⟨t, rfl⟩
  have hne2 : ¬ (([] ++ (t ++ ['\n'])).isEmpty = true) := by simp
  rw [if_neg hne2]
  simp only [List.nil_append]
  rw [List.dropLast_concat]
  rw [countNl_append] at hcount
  rw [numLines_eq_countNl]
  simp [countNl] at hcount ⊢
  omega

/-- Witness for the amended C8: a two-comment group with a special (tag)
line replaced by a blank placeholder line. -/
theorem getText_line_count_w :
    numLines (V2.getText ["// Hello.".data, "// nolint:foo".data]) =
      (["// Hello.".data, "// nolint:foo".data].map numLines).sum :=
  getText_line_count ["// Hello.".data, "// nolint:foo".data] (by decide) (by decide)

theorem fixJoin_eq_joinNl (ls : List GoStr) : fixJoin ls = joinNl ls := by
  induction ls with
  | nil => rfl
  | cons l rest ih =>
    cases rest with
    | nil =>
      unfold fixJoin joinNl
      simp
    | cons l2 rest2 =>
      unfold fixJoin at ih ⊢
      simp only [List.map_cons, List.flatten_cons] at ih ⊢
      have hne : (l2 ++ ['\n'] ++ (List.map (fun l => l ++ ['\n']) rest2).flatten) ≠ [] := by
        simp
      rw [List.append_assoc l, List.singleton_append, List.dropLast_append_cons,
        List.dropLast_cons_of_ne_nil hne, ih]
      rfl

theorem replaceLines_length (m : Nat → Option Issue) (i : Nat) (ls : List GoStr) :
    (V1.replaceLines m i ls).length = ls.length := by
  induction ls generalizing i with
  | nil => rfl
  | cons l rest ih =>
    unfold V1.replaceLines
    simp [ih]

theorem replaceLines_get (m : Nat → Option Issue) (i : Nat) (ls : List GoStr)
    (j : Nat) (h : m (i + j + 1) = none) :
    (V1.replaceLines m i ls).get? j = ls.get? j := by
  induction ls generalizing i j with
  | nil => rfl
  | cons l rest ih =>
    unfold V1.replaceLines
    cases j with
    | zero =>
      have : m (i + 1) = none := by
        have h2 : i + 0 + 1 = i + 1 := by omega
        rw [h2] at h
        exact h
      rw [this]
      rfl
    | succ j2 =>
      simp only [List.get?_cons_succ]
      apply ih
      have : i + 1 + j2 + 1 = i + (j2 + 1) + 1 := by omega
      rw [this]
      exact h

theorem lineMap_eq_none (issues : List Issue) (n : Nat)
    (h : ∀ iss ∈ issues, iss.pos.line ≠ n) : V1.lineMap issues n = none := by
  unfold V1.lineMap
  have : issues.filter (fun iss => iss.pos.line == n) = [] := by
    rw [List.filter_eq_nil_iff]
    intro iss hiss
    simp [h iss hiss]
  rw [this]
  rfl

/-- **C4.**  `Fix` changes only lines carrying an issue: the output is the
line-by-line rejoin of the input where every line whose number bears no
issue is byte-identical to the input line, the line count is unchanged, and
rejoining the untouched split reproduces the input bytes exactly (so the
presence or absence of a trailing newline is preserved). -/
theorem fix_untouched_lines (content : GoStr) (file : GoFile) (scope : Scope)
    (issues : List Issue) (fixed : GoStr)
    (hne : content ≠ [])
    (hrun : V1.Run file scope = Except.ok issues)
    (hfix : V1.Fix content file scope = Except.ok (some fixed)) :
    ∃ ls2, fixed = fixJoin ls2 ∧
      ls2.length = (splitLines content).length ∧
      (∀ j, (∀ iss ∈ issues, iss.pos.line ≠ j + 1) →
        ls2.get? j = (splitLines content).get? j) ∧
      fixJoin (splitLines content) = content := by
  refine ⟨V1.replaceLines (V1.lineMap issues) 0 (splitLines content), ?_, ?_, ?_, ?_⟩
  · unfold V1.Fix at hfix
    rw [if_neg (by simp [hne] : ¬ (content.isEmpty = true))] at hfix
    rw [hrun] at hfix
    cases hfix
    rfl
  · exact replaceLines_length _ 0 _
  · intro j hj
    apply replaceLines_get
    have h0 : (0 : Nat) + j + 1 = j + 1 := by omega
    rw [h0]
    exact lineMap_eq_none issues (j + 1) hj
  · rw [fixJoin_eq_joinNl, joinNl_splitLines]

/-- Inputs for the C4 witness: one top-level comment `// Hello` on line 3. -/
def c4cg : CommentGroup :=
  { list := ["// Hello".data], pos := 12, endPos := 20, filename := "m.go".data,
    offset := 11, posLine := 3, posColumn := 1, endLine := 3 }

/-- See `c4cg`. -/
def c4File : GoFile :=
  { comments := [c4cg], decls := [],
    rendered := ["package p".data, [], "// Hello".data, []] }

/-- The issue `Run` reports for `c4File`. -/
def c4Issue : Issue :=
  { pos := { filename := "m.go".data, offset := 11, line := 3, column := 9 },
    message := V1.noPeriodMessage, replacement := "// Hello.".data }

/-- Witness for C4: `Fix` rewrites only line 3 of the four-line file. -/
theorem fix_untouched_lines_w :
    ∃ ls2, ("package p\n\n// Hello.\n".data) = fixJoin ls2 ∧
      ls2.length = (splitLines ("package p\n\n// Hello\n".data)).length ∧
      (∀ j, (∀ iss ∈ [c4Issue], iss.pos.line ≠ j + 1) →
        ls2.get? j = (splitLines ("package p\n\n// Hello\n".data)).get? j) ∧
      fixJoin (splitLines ("package p\n\n// Hello\n".data)) =
        "package p\n\n// Hello\n".data :=
  fix_untouched_lines ("package p\n\n// Hello\n".data) c4File Scope.all [c4Issue]
    ("package p\n\n// Hello.\n".data) (by decide) (by decide) (by decide)

theorem splitLines_no_nl (l : GoStr) (hl : '\n' ∉ l) : splitLines l = [l] := by
  induction l with
  | nil => rfl
  | cons c cs ih =>
    have hc : c ≠ '\n' := fun hh => hl (hh ▸ List.mem_cons_self c cs)
    have hcs : '\n' ∉ cs := fun hh => hl (List.mem_cons_of_mem c hh)
    simp only [splitLines, if_neg hc]
    rw [ih hcs]

theorem splitLines_append_nl (l : GoStr) (hl : '\n' ∉ l) (s : GoStr) :
    splitLines (l ++ '\n' :: s) = l :: splitLines s := by
  induction l with
  | nil => simp [splitLines]
  | cons c cs ih =>
    have hc : c ≠ '\n' := fun hh => hl (hh ▸ List.mem_cons_self c cs)
    have hcs : '\n' ∉ cs := fun hh => hl (List.mem_cons_of_mem c hh)
    simp only [List.cons_append, splitLines, if_neg hc]
    simp only [List.append_eq]
    rw [ih hcs]

theorem splitLines_joinNl (ls : List GoStr) (hne : ls ≠ [])
    (hnl : ∀ l ∈ ls, '\n' ∉ l) : splitLines (joinNl ls) = ls := by
  induction ls with
  | nil => exact absurd rfl hne
  | cons l rest ih =>
    cases rest with
    | nil =>
      simp only [joinNl]
      exact splitLines_no_nl l (hnl l (List.mem_cons_self l []))
    | cons l2 rest2 =>
      have hj : joinNl (l :: l2 :: rest2) = l ++ '\n' :: joinNl (l2 :: rest2) := rfl
      rw [hj, splitLines_append_nl l (hnl l (List.mem_cons_self l _))]
      rw [ih (by simp) (fun x hx => hnl x (List.mem_cons_of_mem l hx))]

/-- The `"/*"` prefix of a joined text is decided by its first line. -/
theorem startsWith_joinNl_head (ls : List GoStr) (hne : ls ≠ []) :
    startsWith (joinNl ls) ("/*".data) = startsWith (ls.getD 0 []) ("/*".data) := by
  cases ls with
  | nil => exact absurd rfl hne
  | cons l rest =>
    cases rest with
    | nil => rfl
    | cons l2 rest2 =>
      have hj : joinNl (l :: l2 :: rest2) = l ++ '\n' :: joinNl (l2 :: rest2) := rfl
      rw [hj]
      simp only [List.getD_cons_zero]
      cases l with
      | nil => rfl
      | cons c cs =>
        cases cs with
        | nil => simp [startsWith, List.isPrefixOf]
        | cons c2 cs2 => simp [startsWith, List.isPrefixOf]

/-- The period insertion `original[:k] + "." + original[k:]`. -/
def insertDot (s : GoStr) (k : Nat) : GoStr := s.take k ++ '.' :: s.drop k

theorem insertDot_append (pre a : GoStr) (k : Nat) :
    insertDot (pre ++ a) (pre.length + k) = pre ++ insertDot a k := by
  unfold insertDot
  rw [List.take_append, List.drop_append]
  simp

theorem trimRight_decomp (s : GoStr) :
    ∃ w, s = trimRight s ++ w ∧ ∀ c ∈ w, goIsSpace c = true := by
  refine ⟨(s.reverse.takeWhile goIsSpace).reverse, ?_, ?_⟩
  · unfold trimRight
    conv_lhs => rw [← List.reverse_reverse s]
    rw [← List.reverse_append]
    congr 1
    conv_lhs => rw [← List.takeWhile_append_dropWhile goIsSpace s.reverse]
  · intro c hc
    exact List.mem_takeWhile_imp (List.mem_reverse.mp hc)

theorem trimRight_concat_nonspace (x : GoStr) (c : Char) (hc : goIsSpace c = false)
    (w : GoStr) (hw : ∀ a ∈ w, goIsSpace a = true) :
    trimRight (x ++ c :: w) = x ++ [c] := by
  unfold trimRight
  rw [show (x ++ c :: w).reverse = w.reverse ++ c :: x.reverse by simp]
  rw [List.dropWhile_append]
  have hwrev : (w.reverse.dropWhile goIsSpace) = [] := by
    rw [List.dropWhile_eq_nil_iff]
    intro a ha
    exact hw a (List.mem_reverse.mp ha)
  rw [hwrev]
  simp only [List.isEmpty_nil, if_true]
  rw [List.dropWhile_cons_of_neg (by simp [hc])]
  simp

theorem trimRight_no_trailing (s : GoStr) :
    trimRight s = [] ∨ ∃ x c, trimRight s = x ++ [c] ∧ goIsSpace c = false := by
  unfold trimRight
  cases h : s.reverse.dropWhile goIsSpace with
  | nil => exact Or.inl rfl
  | cons a as =>
    refine Or.inr ⟨as.reverse, a, by simp, ?_⟩
    have := List.head_dropWhile_not goIsSpace s.reverse
    rw [h] at this
    simpa using this (by simp)

theorem scan_none (isBlock : Bool) (n : Nat) (ls : List GoStr) (start : Nat)
    (h : V1.scan isBlock n start ls = none) :
    ∀ m, m < ls.length → trimRight (V1.stripAt isBlock n (start + m) (ls.getD m [])).1 = [] := by
  induction ls generalizing start with
  | nil => intro m hm; cases hm
  | cons l rest ih =>
    intro m hm
    unfold V1.scan at h
    cases hrest : V1.scan isBlock n (start + 1) rest with
    | some r => rw [hrest] at h; cases h
    | none =>
      rw [hrest] at h
      cases m with
      | zero =>
        simp only [List.getD_cons_zero, Nat.add_zero]
        by_cases hb : (trimRight (V1.stripAt isBlock n start l).1).isEmpty
        · exact List.isEmpty_iff.mp hb
        · exfalso
          revert h
          rcases hp : V1.stripAt isBlock n start l with ⟨sl, pre⟩
          simp only [hp]
          rw [if_neg (by simpa [hp] using hb)]
          intro h
          cases h
      | succ m2 =>
        have := ih (start + 1) hrest m2 (by simpa using hm)
        simpa [Nat.add_assoc, Nat.add_comm 1 m2] using this

theorem scan_none_of (isBlock : Bool) (n : Nat) (ls : List GoStr) (start : Nat)
    (h : ∀ m, m < ls.length →
      trimRight (V1.stripAt isBlock n (start + m) (ls.getD m [])).1 = []) :
    V1.scan isBlock n start ls = none := by
  induction ls generalizing start with
  | nil => rfl
  | cons l rest ih =>
    unfold V1.scan
    rw [ih (start + 1) (fun m hm => by
      have := h (m + 1) (by simpa using hm)
      simpa [Nat.add_assoc, Nat.add_comm 1 m] using this)]
    rcases hp : V1.stripAt isBlock n start l with ⟨sl, pre⟩
    simp only
    have h0 := h 0 (by simp)
    simp only [List.getD_cons_zero, Nat.add_zero, hp] at h0
    rw [if_pos (by simp [h0])]

theorem scan_some (isBlock : Bool) (n : Nat) (ls : List GoStr) (start j : Nat)
    (t pre : GoStr) (h : V1.scan isBlock n start ls = some (j, t, pre)) :
    ∃ k, j = start + k ∧ k < ls.length ∧
      trimRight (V1.stripAt isBlock n j (ls.getD k [])).1 = t ∧
      (V1.stripAt isBlock n j (ls.getD k [])).2 = pre ∧ t ≠ [] ∧
      ∀ m, k < m → m < ls.length →
        trimRight (V1.stripAt isBlock n (start + m) (ls.getD m [])).1 = [] := by
  induction ls generalizing start with
  | nil => cases h
  | cons l rest ih =>
    unfold V1.scan at h
    cases hrest : V1.scan isBlock n (start + 1) rest with
    | some r =>
      rw [hrest] at h
      cases h
      rcases ih (start + 1) hrest with ⟨k2, hj, hk2, ht, hpre, htne, hblank⟩
      refine ⟨k2 + 1, by omega, by simpa using hk2, by simpa using ht,
        by simpa using hpre, htne, ?_⟩
      intro m hm1 hm2
      cases m with
      | zero => omega
      | succ m2 =>
        have := hblank m2 (by omega) (by simpa using hm2)
        simpa [Nat.add_assoc, Nat.add_comm 1 m2] using this
    | none =>
      rw [hrest] at h
      rcases hp : V1.stripAt isBlock n start l with ⟨sl, pre2⟩
      rw [hp] at h
      simp only at h
      by_cases hb : trimRight sl = []
      · rw [if_pos (by simp [hb])] at h; cases h
      · rw [if_neg (by simp [hb])] at h
        simp only [Option.some_inj, Prod.mk.injEq] at h
        obtain ⟨h1, h2, h3⟩ := h
        subst h1
        subst h2
        subst h3
        refine ⟨0, by omega, by simp, by simp [hp], by simp [hp], hb, ?_⟩
        intro m hm1 hm2
        cases m with
        | zero => omega
        | succ m2 =>
          have := scan_none isBlock n rest (start + 1) hrest m2 (by simpa using hm2)
          simpa [Nat.add_assoc, Nat.add_comm 1 m2] using this

theorem scan_construct (isBlock : Bool) (n : Nat) (ls : List GoStr) (start k : Nat)
    (hk : k < ls.length)
    (hnb : trimRight (V1.stripAt isBlock n (start + k) (ls.getD k [])).1 ≠ [])
    (hblank : ∀ m, k < m → m < ls.length →
      trimRight (V1.stripAt isBlock n (start + m) (ls.getD m [])).1 = []) :
    V1.scan isBlock n start ls = some (start + k,
      trimRight (V1.stripAt isBlock n (start + k) (ls.getD k [])).1,
      (V1.stripAt isBlock n (start + k) (ls.getD k [])).2) := by
  induction ls generalizing start k with
  | nil => cases hk
  | cons l rest ih =>
    unfold V1.scan
    cases k with
    | zero =>
      have hnone : V1.scan isBlock n (start + 1) rest = none := by
        apply scan_none_of
        intro m hm
        have := hblank (m + 1) (by omega) (by simpa using hm)
        simpa [Nat.add_assoc, Nat.add_comm 1 m] using this
      rw [hnone]
      rcases hp : V1.stripAt isBlock n start l with ⟨sl, pre2⟩
      simp only [List.getD_cons_zero, Nat.add_zero, hp] at hnb ⊢
      rw [if_neg (by simpa using hnb)]
    | succ k2 =>
      have hsome := ih (start + 1) k2 (by simpa using hk)
        (by
          have := hnb
          simpa [Nat.add_assoc, Nat.add_comm 1 k2] using this)
        (by
          intro m hm1 hm2
          have := hblank (m + 1) (by omega) (by simpa using hm2)
          simpa [Nat.add_assoc, Nat.add_comm 1 m] using this)
      rw [hsome]
      simp only [List.getD_cons_succ]
      have e1 : start + 1 + k2 = start + (k2 + 1) := by omega
      rw [e1]

/-- The marker prefix `checkText` accounts for at line `i`. -/
def preAt (isBlock : Bool) (i : Nat) : GoStr :=
  if !isBlock then "//".data else if i = 0 then "/*".data else []

theorem trimLead_nil (line : GoStr) : trimLead line [] = line := by
  simp [trimLead, startsWith, List.isPrefixOf]

theorem stripAt_eq (isBlock : Bool) (n i : Nat) (line : GoStr) :
    V1.stripAt isBlock n i line =
      ((if isBlock && decide (i = n - 1) then
          trimSuffix (trimLead line (preAt isBlock i)) ("*/".data)
        else trimLead line (preAt isBlock i)), preAt isBlock i) := by
  cases isBlock with
  | false => simp [V1.stripAt, preAt]
  | true =>
    by_cases hi : i = 0
    · subst hi
      simp [V1.stripAt, preAt]
    · simp [V1.stripAt, preAt, hi, trimLead_nil]

theorem trimLead_of_append (p x : GoStr) : trimLead (p ++ x) p = x := by
  unfold trimLead
  rw [if_pos (by
    unfold startsWith
    rw [List.isPrefixOf_iff_prefix]
    exact List.prefix_append p x)]
  rw [show p.length = p.length + 0 by omega, List.drop_append]
  rfl

theorem trimSuffix_of_append (x p : GoStr) : trimSuffix (x ++ p) p = x := by
  unfold trimSuffix
  rw [if_pos (by
    unfold endsWith
    rw [List.isSuffixOf_iff_suffix]
    exact List.suffix_append x p)]
  simp

theorem not_endsWith_dotws (t w : GoStr) (hw : ∀ a ∈ w, goIsSpace a = true) :
    endsWith (t ++ '.' :: w) ("*/".data) = false := by
  by_contra hcon
  have hcon2 : endsWith (t ++ '.' :: w) ("*/".data) = true := by
    revert hcon
    cases endsWith (t ++ '.' :: w) ("*/".data) <;> simp
  have hsuf : ("*/".data) <:+ (t ++ '.' :: w) := by
    rw [← List.isSuffixOf_iff_suffix]
    exact hcon2
  rcases hsuf with ⟨y, hy⟩
  have h1 : (y ++ "*/".data).getLast? = some '/' := by
    rw [List.getLast?_append_of_ne_nil y (show ("*/".data) ≠ [] by simp)]
    rfl
  rw [hy] at h1
  rw [List.getLast?_append_of_ne_nil t (show ('.' :: w) ≠ [] by simp)] at h1
  cases w with
  | nil => simp at h1
  | cons a as =>
    have hmem : ('.' :: a :: as).getLast (by simp) ∈ ('.' :: a :: as) :=
      List.getLast_mem _
    rw [List.getLast?_eq_getLast _ (by simp)] at h1
    have hlast : ('.' :: a :: as).getLast (by simp) = '/' := by
      simpa using h1
    rw [hlast] at hmem
    rcases List.mem_cons.mp hmem with h | h
    · cases h
    · have := hw '/' h
      simp [goIsSpace] at this

theorem insertDot_exact (t X : GoStr) : insertDot (t ++ X) t.length = t ++ '.' :: X := by
  unfold insertDot
  rw [show t.length = t.length + 0 by omega, List.take_append, List.drop_append]
  simp

theorem trimSuffix_split (a p : GoStr) (h : endsWith a p = true) :
    trimSuffix a p ++ p = a := by
  unfold trimSuffix
  rw [if_pos h]
  exact endsWith_take_append a p h

theorem stripAt_insertDot (isBlock : Bool) (n i : Nat) (line t : GoStr)
    (hpre : startsWith line (preAt isBlock i) = true)
    (ht : trimRight (V1.stripAt isBlock n i line).1 = t) :
    trimRight (V1.stripAt isBlock n i
      (insertDot line ((preAt isBlock i).length + t.length))).1 = t ++ ['.'] := by
  rw [stripAt_eq] at ht ⊢
  simp only at ht ⊢
  have hline : preAt isBlock i ++ line.drop (preAt isBlock i).length = line :=
    startsWith_append_drop line (preAt isBlock i) hpre
  set a := line.drop (preAt isBlock i).length with hadef
  rw [← hline] at ht ⊢
  rw [insertDot_append, trimLead_of_append]
  rw [trimLead_of_append] at ht
  by_cases hcond : (isBlock && decide (i = n - 1)) = true
  · rw [if_pos hcond] at ht ⊢
    by_cases hew : endsWith a ("*/".data) = true
    · rcases trimRight_decomp (trimSuffix a ("*/".data)) with ⟨w, hdec, hw⟩
      rw [ht] at hdec
      have ha : a = t ++ (w ++ "*/".data) := by
        conv_lhs => rw [← trimSuffix_split a ("*/".data) hew]
        rw [hdec]
        simp
      rw [ha, insertDot_exact]
      rw [show (t ++ '.' :: (w ++ "*/".data)) = (t ++ '.' :: w) ++ "*/".data by simp]
      rw [trimSuffix_of_append]
      exact trimRight_concat_nonspace t '.' (by decide) w hw
    · rw [show trimSuffix a ("*/".data) = a by unfold trimSuffix; rw [if_neg (by simp [hew])]]
        at ht
      rcases trimRight_decomp a with ⟨w, hdec, hw⟩
      rw [ht] at hdec
      rw [hdec, insertDot_exact]
      rw [show trimSuffix (t ++ '.' :: w) ("*/".data) = t ++ '.' :: w by
        unfold trimSuffix
        rw [if_neg (by simp [not_endsWith_dotws t w hw])]]
      exact trimRight_concat_nonspace t '.' (by decide) w hw
  · rw [if_neg hcond] at ht ⊢
    rcases trimRight_decomp a with ⟨w, hdec, hw⟩
    rw [ht] at hdec
    rw [hdec, insertDot_exact]
    exact trimRight_concat_nonspace t '.' (by decide) w hw

theorem hasSuffix_dot (t : GoStr) : hasSuffix (t ++ ['.']) V1.lastChars = true := by
  unfold hasSuffix V1.lastChars
  simp only [List.any_cons]
  have h1 : endsWith (t ++ ['.']) (".".data) = true := by
    unfold endsWith
    rw [List.isSuffixOf_iff_suffix]
    exact ⟨t, rfl⟩
  rw [h1]
  rfl

theorem checkText_fixed (L : List GoStr) (hL : ∀ l ∈ L, '\n' ∉ l)
    (i col : Nat) (hct : V1.checkText (joinNl L) = (⟨i + 1, col⟩, false))
    (nl : GoStr) (hnl : '\n' ∉ nl)
    (hb0 : i = 0 → startsWith nl ("/*".data) = startsWith (L.getD 0 []) ("/*".data))
    (hstr1 : trimRight (V1.stripAt (startsWith (joinNl L) ("/*".data)) L.length i nl).1 ≠ [])
    (hstr2 : hasSuffix
      (trimRight (V1.stripAt (startsWith (joinNl L) ("/*".data)) L.length i nl).1)
      V1.lastChars = true) :
    V1.checkText (joinNl (L.set i nl)) = (⟨0, 0⟩, true) := by
  have hLne : L ≠ [] := by
    intro hh
    subst hh
    have : V1.checkText (joinNl ([] : List GoStr)) = (⟨0, 0⟩, true) := by decide
    rw [this] at hct
    simp at hct
  have hsplit : splitLines (joinNl L) = L := splitLines_joinNl L hLne hL
  unfold V1.checkText at hct
  rw [hsplit] at hct
  dsimp only at hct
  cases hscan : V1.scan (startsWith (joinNl L) ("/*".data)) L.length 0 L with
  | none => rw [hscan] at hct; simp at hct
  | some r =>
    obtain ⟨j, t, pre⟩ := r
    rw [hscan] at hct
    dsimp only at hct
    by_cases hsuf : hasSuffix t V1.lastChars = true
    · rw [if_pos hsuf] at hct
      simp at hct
    · rw [if_neg hsuf] at hct
      simp only [Prod.mk.injEq, position.mk.injEq] at hct
      obtain ⟨⟨hj, hcol⟩, _⟩ := hct
      have hji : j = i := by omega
      subst hji
      rcases scan_some _ _ _ _ _ _ _ hscan with ⟨k, hk0, hklen, hkt, hkpre, hktne, hkblank⟩
      have hki : k = j := by omega
      subst hki
      -- second pass
      have hL2 : ∀ l ∈ L.set k nl, '\n' ∉ l := by
        intro l hl
        rcases List.mem_or_eq_of_mem_set hl with h | rfl
        · exact hL l h
        · exact hnl
      have hL2ne : L.set k nl ≠ [] := by
        have hlen0 : (L.set k nl).length = L.length := List.length_set L k nl
        intro hh
        rw [hh] at hlen0
        simp at hlen0
        omega
      have hsplit2 : splitLines (joinNl (L.set k nl)) = L.set k nl :=
        splitLines_joinNl _ hL2ne hL2
      unfold V1.checkText
      rw [hsplit2]
      dsimp only
      have hhead : (L.set k nl).getD 0 [] = (if k = 0 then nl else L.getD 0 []) := by
        by_cases hk : k = 0
        · subst hk
          rw [List.getD_eq_getElem?_getD, List.getElem?_set_self (by omega)]
          simp
        · rw [if_neg hk, List.getD_eq_getElem?_getD, List.getElem?_set_ne (by omega),
            List.getD_eq_getElem?_getD]
      have hib2 : startsWith (joinNl (L.set k nl)) ("/*".data) =
          startsWith (joinNl L) ("/*".data) := by
        rw [startsWith_joinNl_head _ hL2ne, startsWith_joinNl_head _ hLne, hhead]
        by_cases hk : k = 0
        · subst hk
          rw [if_pos rfl, hb0 rfl]
        · rw [if_neg hk]
      rw [hib2]
      have hlen2 : (L.set k nl).length = L.length := List.length_set L k nl
      rw [hlen2]
      have hscan2 := scan_construct (startsWith (joinNl L) ("/*".data)) L.length
        (L.set k nl) 0 k (by rw [hlen2]; omega)
        (by
          have hgd : (L.set k nl).getD k [] = nl := by
            rw [List.getD_eq_getElem?_getD, List.getElem?_set_self (by omega)]
            rfl
          rw [hgd]
          simpa using hstr1)
        (by
          intro m hm1 hm2
          rw [hlen2] at hm2
          have hgd : (L.set k nl).getD m [] = L.getD m [] := by
            rw [List.getD_eq_getElem?_getD, List.getElem?_set_ne (by omega),
              List.getD_eq_getElem?_getD]
          rw [hgd]
          exact hkblank m hm1 hm2)
      rw [hscan2]
      have hgd : (L.set k nl).getD k [] = nl := by
        rw [List.getD_eq_getElem?_getD, List.getElem?_set_self (by omega)]
        rfl
      rw [hgd]
      simp only [Nat.zero_add]
      rw [if_pos (by simpa using hstr2)]

/-- The raw text lines of a comment group (each item split on newlines). -/
def rawLines (items : List GoStr) : List GoStr := (items.map splitLines).flatten

/-- One comment item as `V1.getText` processes it: special lines replaced by
the placeholder, the rest kept verbatim. -/
def procItem (c : GoStr) : List GoStr :=
  (splitLines c).map (fun line => if isSpecialLine line then
    (if startsWith c ("/*".data) then ".".data else "// .".data) else line)

/-- All processed lines of a comment group. -/
def procLines (items : List GoStr) : List GoStr := (items.map procItem).flatten

theorem foldl_append_nl {α : Type} (f : α → GoStr) (ls : List α) (s : GoStr) :
    ls.foldl (fun s x => s ++ f x ++ ['\n']) s
      = s ++ (ls.map (fun x => f x ++ ['\n'])).flatten := by
  induction ls generalizing s with
  | nil => simp
  | cons a rest ih =>
    rw [List.foldl_cons, ih]
    simp

theorem getText_outer (items : List GoStr) (s : GoStr) :
    items.foldl (fun s c =>
      let isMultiline := startsWith c ("/*".data)
      (splitLines c).foldl (fun s line =>
        let line := if isSpecialLine line then
          (if isMultiline then ".".data else "// .".data) else line
        s ++ line ++ ['\n']) s) s
    = s ++ ((procLines items).map (fun l => l ++ ['\n'])).flatten := by
  induction items generalizing s with
  | nil => simp [procLines]
  | cons c rest ih =>
    rw [List.foldl_cons]
    have hinner := foldl_append_nl
      (fun line => if isSpecialLine line then
        (if startsWith c ("/*".data) then ".".data else "// .".data) else line)
      (splitLines c) s
    dsimp only
    rw [hinner, ih]
    have hpc : procLines (c :: rest) = procItem c ++ procLines rest := by
      unfold procLines
      simp
    rw [hpc]
    unfold procItem
    simp only [List.map_append, List.flatten_append, List.map_map, List.append_assoc]
    rfl

theorem procLines_ne_nil (items : List GoStr) (hne : items ≠ []) :
    procLines items ≠ [] := by
  cases items with
  | nil => exact absurd rfl hne
  | cons c rest =>
    unfold procLines
    simp only [List.map_cons, List.flatten_cons]
    intro hh
    have h1 : procItem c = [] := by
      rcases List.append_eq_nil.mp hh with ⟨h1, _⟩
      exact h1
    unfold procItem at h1
    rw [List.map_eq_nil_iff] at h1
    exact splitLines_ne_nil c h1

theorem getTextV1_eq (items : List GoStr) (hne : items ≠ [])
    (hns : ¬ (items.length = 1 ∧ startsWith (items.headD []) ("/*".data) = true ∧
      isSpecialBlock (items.headD []) = true)) :
    V1.getText items = joinNl (procLines items) := by
  unfold V1.getText
  rw [if_neg (by simpa using hns)]
  rw [getText_outer]
  simp only [List.nil_append]
  have hnonempty : ((procLines items).map (fun l => l ++ ['\n'])).flatten ≠ [] := by
    cases hpl : procLines items with
    | nil => exact absurd hpl (procLines_ne_nil items hne)
    | cons x xs =>
      simp
  rw [if_neg (by simpa using hnonempty)]
  rw [← fixJoin_eq_joinNl]
  rfl

theorem noNl_procLines (items : List GoStr) : ∀ l ∈ procLines items, '\n' ∉ l := by
  intro l hl
  unfold procLines at hl
  rcases List.mem_flatten.mp hl with ⟨sub, hsub, hlsub⟩
  rcases List.mem_map.mp hsub with ⟨c, hc, rfl⟩
  unfold procItem at hlsub
  rcases List.mem_map.mp hlsub with ⟨line, hline, rfl⟩
  by_cases hsp : isSpecialLine line = true
  · rw [if_pos hsp]
    split <;> simp
  · rw [if_neg hsp]
    exact noNl_splitLines c line hline

namespace V1

/-- Models the effect of `Fix` followed by a re-parse on the comment group's
item texts: the flagged text line is replaced inside the item that contains
it, the item structure being preserved. -/
def setTextLine : List GoStr → Nat → GoStr → List GoStr
  | [], _, _ => []
  | t :: rest, i, nl =>
    if i < (splitLines t).length then joinNl ((splitLines t).set i nl) :: rest
    else t :: setTextLine rest (i - (splitLines t).length) nl

end V1

theorem rawLines_cons (t : GoStr) (rest : List GoStr) :
    rawLines (t :: rest) = splitLines t ++ rawLines rest := by
  simp [rawLines]

theorem procLines_cons (t : GoStr) (rest : List GoStr) :
    procLines (t :: rest) = procItem t ++ procLines rest := by
  simp [procLines]

theorem length_procItem (t : GoStr) : (procItem t).length = (splitLines t).length := by
  simp [procItem]

theorem length_procLines (items : List GoStr) :
    (procLines items).length = (rawLines items).length := by
  induction items with
  | nil => rfl
  | cons t rest ih =>
    rw [procLines_cons, rawLines_cons]
    simp [length_procItem, ih]

theorem procLines_getD_eq (items : List GoStr) (i : Nat)
    (hraw : isSpecialLine ((rawLines items).getD i []) = false) :
    (procLines items).getD i [] = (rawLines items).getD i [] := by
  induction items generalizing i with
  | nil => rfl
  | cons t rest ih =>
    rw [procLines_cons, rawLines_cons] at *
    by_cases hit : i < (splitLines t).length
    · have e1 : (procItem t ++ procLines rest).getD i [] = (procItem t).getD i [] := by
        rw [List.getD_eq_getElem?_getD, List.getElem?_append,
          if_pos (by rw [length_procItem]; exact hit), ← List.getD_eq_getElem?_getD]
      have e2 : (splitLines t ++ rawLines rest).getD i [] = (splitLines t).getD i [] := by
        rw [List.getD_eq_getElem?_getD, List.getElem?_append, if_pos hit,
          ← List.getD_eq_getElem?_getD]
      rw [e1, e2]
      rw [e2] at hraw
      unfold procItem
      rw [List.getD_eq_getElem?_getD, List.getElem?_map]
      cases hx : (splitLines t)[i]? with
      | none =>
        rw [List.getD_eq_getElem?_getD, hx]
        rfl
      | some x =>
        rw [List.getD_eq_getElem?_getD, hx] at hraw
        simp only [Option.getD_some] at hraw
        rw [List.getD_eq_getElem?_getD, hx]
        simp [hraw]
    · have e1 : (procItem t ++ procLines rest).getD i [] =
          (procLines rest).getD (i - (splitLines t).length) [] := by
        rw [List.getD_eq_getElem?_getD, List.getElem?_append,
          if_neg (by rw [length_procItem]; exact hit), length_procItem,
          ← List.getD_eq_getElem?_getD]
      have e2 : (splitLines t ++ rawLines rest).getD i [] =
          (rawLines rest).getD (i - (splitLines t).length) [] := by
        rw [List.getD_eq_getElem?_getD, List.getElem?_append, if_neg hit,
          ← List.getD_eq_getElem?_getD]
      rw [e1, e2]
      rw [e2] at hraw
      exact ih _ hraw

theorem setTextLine_ne_nil (items : List GoStr) (i : Nat) (nl : GoStr)
    (hne : items ≠ []) : V1.setTextLine items i nl ≠ [] := by
  cases items with
  | nil => exact absurd rfl hne
  | cons t rest =>
    unfold V1.setTextLine
    split <;> simp

theorem startsWith_item_head (t : GoStr) :
    startsWith t ("/*".data) = startsWith ((splitLines t).getD 0 []) ("/*".data) := by
  conv_lhs => rw [← joinNl_splitLines t]
  exact startsWith_joinNl_head (splitLines t) (splitLines_ne_nil t)

theorem procLines_set (items : List GoStr) (i : Nat) (nl : GoStr)
    (hnl : '\n' ∉ nl)
    (hnsp : isSpecialLine nl = false)
    (hraw : isSpecialLine ((rawLines items).getD i []) = false)
    (hb : startsWith nl ("/*".data) = startsWith ((rawLines items).getD i []) ("/*".data)) :
    procLines (V1.setTextLine items i nl) = (procLines items).set i nl := by
  induction items generalizing i with
  | nil => rfl
  | cons t rest ih =>
    rw [rawLines_cons] at hraw hb
    unfold V1.setTextLine
    by_cases hit : i < (splitLines t).length
    · rw [if_pos hit]
      have hgd : (splitLines t ++ rawLines rest).getD i [] = (splitLines t).getD i [] := by
        rw [List.getD_eq_getElem?_getD, List.getElem?_append, if_pos hit,
          ← List.getD_eq_getElem?_getD]
      rw [hgd] at hraw hb
      have hlsnl : ∀ l ∈ (splitLines t).set i nl, '\n' ∉ l := by
        intro l hl
        rcases List.mem_or_eq_of_mem_set hl with h | rfl
        · exact noNl_splitLines t l h
        · exact hnl
      have hsne : (splitLines t).set i nl ≠ [] := by
        have h1 : ((splitLines t).set i nl).length = (splitLines t).length :=
          List.length_set _ _ _
        intro hh
        rw [hh] at h1
        simp at h1
        exact splitLines_ne_nil t (List.length_eq_zero.mp h1.symm)
      have hsplit2 : splitLines (joinNl ((splitLines t).set i nl)) =
          (splitLines t).set i nl := splitLines_joinNl _ hsne hlsnl
      have hbpres : startsWith (joinNl ((splitLines t).set i nl)) ("/*".data) =
          startsWith t ("/*".data) := by
        rw [startsWith_joinNl_head _ hsne]
        by_cases hi0 : i = 0
        · subst hi0
          rw [List.getD_eq_getElem?_getD, List.getElem?_set_self hit]
          simp only [Option.getD_some]
          rw [hb]
          exact (startsWith_item_head t).symm
        · rw [List.getD_eq_getElem?_getD, List.getElem?_set_ne (by omega),
            ← List.getD_eq_getElem?_getD]
          exact (startsWith_item_head t).symm
      have hpi : procItem (joinNl ((splitLines t).set i nl)) = (procItem t).set i nl := by
        unfold procItem
        rw [hsplit2, hbpres, List.map_set]
        simp [hnsp]
      rw [procLines_cons, procLines_cons, hpi]
      rw [List.set_append, if_pos (by rw [length_procItem]; exact hit)]
    · rw [if_neg hit]
      have hgd : (splitLines t ++ rawLines rest).getD i [] =
          (rawLines rest).getD (i - (splitLines t).length) [] := by
        rw [List.getD_eq_getElem?_getD, List.getElem?_append, if_neg hit,
          ← List.getD_eq_getElem?_getD]
      rw [hgd] at hraw hb
      rw [procLines_cons, procLines_cons, ih _ hraw hb]
      rw [List.set_append, if_neg (by rw [length_procItem]; exact hit), length_procItem]

theorem noNl_insertDot (s : GoStr) (k : Nat) (hs : '\n' ∉ s) : '\n' ∉ insertDot s k := by
  unfold insertDot
  intro hmem
  rcases List.mem_append.mp hmem with h | h
  · exact hs (List.take_subset k s h)
  · rcases List.mem_cons.mp h with h | h
    · cases h
    · exact hs (List.drop_subset k s h)

theorem getD_mem_of_lt {α : Type} (l : List α) (i : Nat) (d : α) (h : i < l.length) :
    l.getD i d ∈ l := by
  rw [List.getD_eq_getElem?_getD, List.getElem?_eq_getElem h]
  simp only [Option.getD_some]
  exact l.getElem_mem h

theorem commentIssue_fixed (c c2 : comment) (i col : Nat) (nl : GoStr)
    (hane : c.astList ≠ [])
    (hns : ¬ (c.astList.length = 1 ∧ startsWith (c.astList.headD []) ("/*".data) = true ∧
      isSpecialBlock (c.astList.headD []) = true))
    (hct : V1.checkText (V1.getText c.astList) = (⟨i + 1, col⟩, false))
    (hpre : startsWith ((procLines c.astList).getD i [])
      (preAt (startsWith (V1.getText c.astList) ("/*".data)) i) = true)
    (hnl : nl = insertDot ((procLines c.astList).getD i []) (col - 1))
    (hnsp : isSpecialLine nl = false)
    (hraworig : isSpecialLine ((rawLines c.astList).getD i []) = false)
    (hb : startsWith nl ("/*".data) = startsWith ((rawLines c.astList).getD i []) ("/*".data))
    (hb0 : i = 0 → startsWith nl ("/*".data) =
      startsWith ((procLines c.astList).getD 0 []) ("/*".data))
    (hns2 : ¬ ((V1.setTextLine c.astList i nl).length = 1 ∧
      startsWith ((V1.setTextLine c.astList i nl).headD []) ("/*".data) = true ∧
      isSpecialBlock ((V1.setTextLine c.astList i nl).headD []) = true))
    (ha2 : c2.astList = V1.setTextLine c.astList i nl) :
    V1.commentIssue c2 = .ok none := by
  have hLne : procLines c.astList ≠ [] := procLines_ne_nil _ hane
  have hLnl : ∀ l ∈ procLines c.astList, '\n' ∉ l := noNl_procLines _
  have htext : V1.getText c.astList = joinNl (procLines c.astList) :=
    getTextV1_eq _ hane hns
  rw [htext] at hct hpre
  have hsplit : splitLines (joinNl (procLines c.astList)) = procLines c.astList :=
    splitLines_joinNl _ hLne hLnl
  have hinv := hct
  unfold V1.checkText at hinv
  rw [hsplit] at hinv
  dsimp only at hinv
  cases hscan : V1.scan (startsWith (joinNl (procLines c.astList)) ("/*".data))
      (procLines c.astList).length 0 (procLines c.astList) with
  | none => rw [hscan] at hinv; simp at hinv
  | some r =>
    obtain ⟨j, t, pre2⟩ := r
    rw [hscan] at hinv
    dsimp only at hinv
    by_cases hsuf : hasSuffix t V1.lastChars = true
    · rw [if_pos hsuf] at hinv; simp at hinv
    · rw [if_neg hsuf] at hinv
      simp only [Prod.mk.injEq, position.mk.injEq] at hinv
      obtain ⟨⟨hj, hcol⟩, _⟩ := hinv
      have hji : j = i := by omega
      subst hji
      rcases scan_some _ _ _ _ _ _ _ hscan with ⟨k, hk0, hklen, hkt, hkpre, htne, _⟩
      have hki : k = j := by omega
      subst hki
      have hpre2 : pre2 = preAt (startsWith (joinNl (procLines c.astList)) ("/*".data)) k := by
        rw [← hkpre, stripAt_eq]
      have hcolm : col - 1 =
          (preAt (startsWith (joinNl (procLines c.astList)) ("/*".data)) k).length +
            t.length := by
        unfold runeLen at hcol
        rw [List.length_append] at hcol
        rw [← hpre2]
        omega
      have hnl2 : nl = insertDot ((procLines c.astList).getD k [])
          ((preAt (startsWith (joinNl (procLines c.astList)) ("/*".data)) k).length +
            t.length) := by
        rw [hnl, hcolm]
      have hfixedline := stripAt_insertDot
        (startsWith (joinNl (procLines c.astList)) ("/*".data))
        (procLines c.astList).length k ((procLines c.astList).getD k []) t hpre hkt
      rw [← hnl2] at hfixedline
      have hnl' : '\n' ∉ nl := by
        rw [hnl]
        exact noNl_insertDot _ _ (hLnl _ (getD_mem_of_lt _ _ _ hklen))
      have hdone := checkText_fixed (procLines c.astList) hLnl k col hct nl hnl' hb0
        (by rw [hfixedline]; simp)
        (by rw [hfixedline]; exact hasSuffix_dot t)
      have hane2 : c2.astList ≠ [] := by
        rw [ha2]; exact setTextLine_ne_nil _ _ _ hane
      have htext2 : V1.getText c2.astList = joinNl ((procLines c.astList).set k nl) := by
        rw [ha2, getTextV1_eq _ (setTextLine_ne_nil _ _ _ hane) hns2,
          procLines_set _ _ _ hnl' hnsp hraworig hb]
      unfold V1.commentIssue
      rw [if_neg (by simp only [List.isEmpty_iff]; exact hane2)]
      rw [htext2]
      dsimp only
      rw [hdone]
      rfl

theorem replaceLines_nil_map (i : Nat) (ls : List GoStr) :
    V1.replaceLines (V1.lineMap []) i ls = ls := by
  induction ls generalizing i with
  | nil => rfl
  | cons l rest ih =>
    unfold V1.replaceLines
    rw [show V1.lineMap [] (i + 1) = none from rfl, ih]

theorem checkComments_ok (cs : List comment)
    (h : ∀ c2 ∈ cs, V1.commentIssue c2 = .ok none) :
    V1.checkComments cs = .ok [] := by
  induction cs with
  | nil => rfl
  | cons c rest ih =>
    unfold V1.checkComments
    rw [h c (List.mem_cons_self c rest),
      ih (fun c2 hc2 => h c2 (List.mem_cons_of_mem c hc2))]

/-- A comment of the re-parsed fixed file that is the coherently re-read image
of a comment `c` that `Run` flagged at in-text position `(i+1, col)`: its text
lines are those of `c` with the flagged line replaced by the same line with a
period inserted at the flagged column, and the layout-coherence side
conditions hold (the new line is not a special line, block-marker prefixes
are preserved, and neither the old nor the new group is a whole special
block). -/
def FixedComment (c2 : comment) : Prop :=
  ∃ (c : comment) (i col : Nat) (nl : GoStr),
    c.astList ≠ [] ∧
    ¬ (c.astList.length = 1 ∧ startsWith (c.astList.headD []) ("/*".data) = true ∧
      isSpecialBlock (c.astList.headD []) = true) ∧
    V1.checkText (V1.getText c.astList) = (⟨i + 1, col⟩, false) ∧
    startsWith ((procLines c.astList).getD i [])
      (preAt (startsWith (V1.getText c.astList) ("/*".data)) i) = true ∧
    nl = insertDot ((procLines c.astList).getD i []) (col - 1) ∧
    isSpecialLine nl = false ∧
    isSpecialLine ((rawLines c.astList).getD i []) = false ∧
    startsWith nl ("/*".data) = startsWith ((rawLines c.astList).getD i []) ("/*".data) ∧
    (i = 0 → startsWith nl ("/*".data) =
      startsWith ((procLines c.astList).getD 0 []) ("/*".data)) ∧
    ¬ ((V1.setTextLine c.astList i nl).length = 1 ∧
      startsWith ((V1.setTextLine c.astList i nl).headD []) ("/*".data) = true ∧
      isSpecialBlock ((V1.setTextLine c.astList i nl).headD []) = true) ∧
    c2.astList = V1.setTextLine c.astList i nl

/-- C3 (amended): `Fix` is not idempotent in general (see the counterexample:
two issues on one physical line), but it is on files whose issues lie on
distinct lines: if every comment of the re-parsed fixed file is either
already clean or the coherently re-read image of a fixed flagged comment
(`FixedComment`), then the second `Run` reports no issues and the second
`Fix` returns its input byte-identically. -/
theorem fix_idempotent_amended (fixed : GoStr) (file2 : GoFile) (scope : Scope)
    (cs2 : List comment)
    (hfne : fixed ≠ [])
    (hget : getComments file2 scope = .ok cs2)
    (hclean : ∀ c2 ∈ cs2, V1.commentIssue c2 = .ok none ∨ FixedComment c2) :
    V1.Run file2 scope = .ok [] ∧ V1.Fix fixed file2 scope = .ok (some fixed) := by
  have hall : ∀ c2 ∈ cs2, V1.commentIssue c2 = .ok none := by
    intro c2 hc2
    rcases hclean c2 hc2 with h | h
    · exact h
    · rcases h with ⟨c, i, col, nl, hane, hns, hct, hpre, hnl, hnsp, hraworig, hb, hb0,
        hns2, ha2⟩
      exact commentIssue_fixed c c2 i col nl hane hns hct hpre hnl hnsp hraworig hb hb0
        hns2 ha2
  have hrun : V1.Run file2 scope = .ok [] := by
    unfold V1.Run
    rw [hget]
    dsimp only
    rw [checkComments_ok cs2 hall]
    rfl
  refine ⟨hrun, ?_⟩
  unfold V1.Fix
  rw [if_neg (by simp only [List.isEmpty_iff]; exact hfne)]
  rw [hrun]
  dsimp only
  rw [replaceLines_nil_map, fixJoin_eq_joinNl, joinNl_splitLines]

/-- First line of the counterexample file: two block comments on one line. -/
def c3lineA : GoStr := "func f(a int /* x */, b int /* y */)".data

/-- The first block comment, starting at column 14. -/
def c3cgX : CommentGroup :=
  { list := ["/* x */".data], pos := 14, endPos := 21, filename := "a.go".data,
    offset := 13, posLine := 1, posColumn := 14, endLine := 1 }

/-- The second block comment, starting at column 29. -/
def c3cgY : CommentGroup :=
  { list := ["/* y */".data], pos := 29, endPos := 36, filename := "a.go".data,
    offset := 28, posLine := 1, posColumn := 29, endLine := 1 }

/-- The parsed counterexample file. -/
def c3file1 : GoFile :=
  { comments := [c3cgX, c3cgY], decls := [], rendered := [c3lineA, "package p".data] }

/-- The counterexample file contents. -/
def c3content1 : GoStr := c3lineA ++ '\n' :: "package p".data

/-- The first line after the first `Fix` (only the second issue survives the
line-keyed map). -/
def c3lineB : GoStr := "func f(a int /* x */, b int /* y. */)".data

/-- The output of the first `Fix`. -/
def c3fixed1 : GoStr := c3lineB ++ '\n' :: "package p".data

/-- The second block comment as re-parsed from the fixed content. -/
def c3cgY2 : CommentGroup :=
  { list := ["/* y. */".data], pos := 29, endPos := 37, filename := "a.go".data,
    offset := 28, posLine := 1, posColumn := 29, endLine := 1 }

/-- The re-parse of the fixed content. -/
def c3file2 : GoFile :=
  { comments := [c3cgX, c3cgY2], decls := [], rendered := [c3lineB, "package p".data] }

/-- C3 counterexample: with two issues on the same physical line, `Fix` keeps
only the last one (the Go map is keyed by line number), so a second `Run` on
the fixed file still reports an issue and a second `Fix` changes the content
again: `Fix` is not idempotent. -/
theorem fix_not_idempotent :
    V1.Fix c3content1 c3file1 Scope.all = .ok (some c3fixed1) ∧
    V1.Run c3file2 Scope.all ≠ .ok [] ∧
    V1.Fix c3fixed1 c3file2 Scope.all ≠ .ok (some c3fixed1) := by decide

/-- The comment group of the fixed single-comment witness file. -/
def c3wCg : CommentGroup :=
  { list := ["// Hello, world.".data], pos := 1, endPos := 17, filename := "w.go".data,
    offset := 0, posLine := 1, posColumn := 1, endLine := 1 }

/-- The re-parse of the fixed single-comment witness file. -/
def c3wFile : GoFile :=
  { comments := [c3wCg], decls := [],
    rendered := ["// Hello, world.".data, "package p".data] }

/-- The witness comment before the fix. -/
def c3wOld : comment :=
  { astList := ["// Hello, world".data], lines := ["// Hello, world".data],
    filename := "w.go".data, offset := 0, startLine := 1, startColumn := 1 }

/-- The fixed witness content. -/
def c3wFixed : GoStr := "// Hello, world.".data ++ '\n' :: "package p".data

theorem fix_idempotent_amended_w :
    V1.Run c3wFile Scope.all = .ok [] ∧
      V1.Fix c3wFixed c3wFile Scope.all = .ok (some c3wFixed) := by
  refine fix_idempotent_amended c3wFixed c3wFile Scope.all [mkComment c3wFile c3wCg]
    (by decide) (by decide) ?_
  intro c2 hc2
  right
  rw [List.mem_singleton] at hc2
  subst hc2
  exact ⟨c3wOld, 0, 16, "// Hello, world.".data, by decide, by decide, by decide,
    by decide, by decide, by decide, by decide, by decide, by decide, by decide, by decide⟩
